import Mathlib

/-!
Verification development for the ESP32 memory test harness
(`tools/memory_test_harness.py`).

The Python source is shallowly embedded: each regular expression of the
harness is translated into an executable deterministic parser over
`List Char` (the grammars have no genuine backtracking: every repeated
character class is followed by a character outside that class, so the
greedy parse is the unique parse), threads and wall-clock time are
abstracted into explicit streams / budgets, and files are lists of
records.  All definitions are computable so that concrete witnesses can
be checked by `decide`.
-/

/-! ## Character classes (Python `re` classes used by the harness) -/

/-- Python regex `\s` on the harness's decoded ASCII lines. -/
def isWs (c : Char) : Bool :=
  c = ' ' || c = '\t' || c = '\n' || c = '\r' || c = Char.ofNat 11 || c = Char.ofNat 12

/-- Python regex `\d` (ASCII digits). -/
def isDigitChar (c : Char) : Bool :=
  48 ≤ c.toNat && c.toNat ≤ 57

/-- Numeric value of a digit character. -/
def charVal (c : Char) : Nat := c.toNat - 48

/-- Decimal digit character for a value below ten (Python `str` of a digit). -/
def digitChar : Nat → Char
  | 0 => '0' | 1 => '1' | 2 => '2' | 3 => '3' | 4 => '4'
  | 5 => '5' | 6 => '6' | 7 => '7' | 8 => '8' | _ => '9'

/-! ## Greedy span / literal primitives -/

/-- Longest prefix of characters satisfying `p`, together with the rest
(the semantics of a greedy `X+` / `X*` character-class repetition). -/
def spanP (p : Char → Bool) : List Char → List Char × List Char
  | [] => ([], [])
  | c :: cs =>
    if p c then (c :: (spanP p cs).1, (spanP p cs).2)
    else ([], c :: cs)

/-- Matching a literal piece of a regex: consume `lit` or fail. -/
def dropLit : List Char → List Char → Option (List Char)
  | [], s => some s
  | _, [] => none
  | l :: ls, c :: cs => if c = l then dropLit ls cs else none

/-- Regex `\s+`: at least one whitespace character, greedily. -/
def ws1 (s : List Char) : Option (List Char) :=
  match spanP isWs s with
  | ([], _) => none
  | (_ :: _, rest) => some rest

/-- Regex `(\S+)`: at least one non-whitespace character, greedily. -/
def nonSpace1 (s : List Char) : Option (List Char × List Char) :=
  match spanP (fun c => !isWs c) s with
  | ([], _) => none
  | (tok, rest) => some (tok, rest)

/-- Regex `(\d+)` with Python `int` conversion of the captured digits. -/
def digitsVal (ds : List Char) : Nat :=
  ds.foldl (fun a c => 10 * a + charVal c) 0

def digits1 (s : List Char) : Option (Nat × List Char) :=
  match spanP isDigitChar s with
  | ([], _) => none
  | (ds, rest) => some (digitsVal ds, rest)

/-- Regex `(-?\d+)` with Python `int` conversion. -/
def intDigits1 (s : List Char) : Option (Int × List Char) :=
  match s with
  | '-' :: rest => (digits1 rest).map (fun nr => (-(nr.1 : Int), nr.2))
  | _ => (digits1 s).map (fun nr => ((nr.1 : Int), nr.2))

/-! ## Decimal rendering (Python `str` of a non-negative `int`),
structurally recursive so the kernel can evaluate it. -/

def natDigitsAux : Nat → Nat → List Char
  | 0, _ => []
  | fuel + 1, n =>
    if n < 10 then [digitChar n]
    else natDigitsAux fuel (n / 10) ++ [digitChar (n % 10)]

def natDigits (n : Nat) : List Char := natDigitsAux (n + 1) n

theorem natDigitsAux_fuel (n : Nat) : ∀ fuel, n < fuel →
    natDigitsAux fuel n = natDigitsAux (n + 1) n := by
  induction n using Nat.strong_induction_on with
  | _ n ih =>
    intro fuel hf
    match fuel, hf with
    | f + 1, hf =>
      show natDigitsAux (f + 1) n = natDigitsAux (n + 1) n
      simp only [natDigitsAux]
      by_cases h10 : n < 10
      · simp [h10]
      · have hdiv : n / 10 < n := Nat.div_lt_self (by omega) (by omega)
        have h1 : natDigitsAux f (n / 10) = natDigitsAux (n / 10 + 1) (n / 10) :=
          ih (n / 10) hdiv f (by omega)
        have h2 : natDigitsAux n (n / 10) = natDigitsAux (n / 10 + 1) (n / 10) :=
          ih (n / 10) hdiv n (by omega)
        simp [h10, h1, h2]

theorem natDigits_eq (n : Nat) :
    natDigits n = if n < 10 then [digitChar n]
      else natDigits (n / 10) ++ [digitChar (n % 10)] := by
  show natDigitsAux (n + 1) n = _
  simp only [natDigitsAux]
  by_cases h10 : n < 10
  · simp [h10]
  · have hdiv : n / 10 < n := Nat.div_lt_self (by omega) (by omega)
    rw [natDigitsAux_fuel (n / 10) n (by omega)]
    simp [h10, natDigits]

theorem digitChar_lt_ten (d : Nat) (h : d < 10) :
    isDigitChar (digitChar d) = true ∧ charVal (digitChar d) = d := by
  interval_cases d <;> exact ⟨by decide, by decide⟩

theorem natDigits_ne_nil (n : Nat) : natDigits n ≠ [] := by
  rw [natDigits_eq]
  by_cases h10 : n < 10 <;> simp [h10]

theorem natDigits_all_digits (n : Nat) : ∀ c ∈ natDigits n, isDigitChar c = true := by
  induction n using Nat.strong_induction_on with
  | _ n ih =>
    rw [natDigits_eq]
    by_cases h10 : n < 10
    · simp only [h10, if_true]
      intro c hc
      simp at hc
      subst hc
      exact (digitChar_lt_ten n h10).1
    · have hdiv : n / 10 < n := Nat.div_lt_self (by omega) (by omega)
      simp only [h10, if_false]
      intro c hc
      rcases List.mem_append.mp hc with h | h
      · exact ih (n / 10) hdiv c h
      · simp at h
        subst h
        exact (digitChar_lt_ten (n % 10) (Nat.mod_lt n (by omega))).1

theorem digitsVal_append_single (ds : List Char) (c : Char) :
    digitsVal (ds ++ [c]) = 10 * digitsVal ds + charVal c := by
  simp [digitsVal, List.foldl_append]

theorem digitsVal_natDigits (n : Nat) : digitsVal (natDigits n) = n := by
  induction n using Nat.strong_induction_on with
  | _ n ih =>
    rw [natDigits_eq]
    by_cases h10 : n < 10
    · simp only [h10, if_true]
      have := (digitChar_lt_ten n h10).2
      simp [digitsVal, this]
    · have hdiv : n / 10 < n := Nat.div_lt_self (by omega) (by omega)
      simp only [h10, if_false]
      rw [digitsVal_append_single, ih (n / 10) hdiv,
        (digitChar_lt_ten (n % 10) (Nat.mod_lt n (by omega))).2]
      omega

/-! ## Parse-step lemmas -/

/-- The next character (if any) of `s` does not satisfy `p`. -/
def headNotP (p : Char → Bool) : List Char → Prop
  | [] => True
  | c :: _ => p c = false

theorem spanP_append (p : Char → Bool) : ∀ (xs ys : List Char),
    (∀ c ∈ xs, p c = true) → headNotP p ys → spanP p (xs ++ ys) = (xs, ys) := by
  intro xs
  induction xs with
  | nil =>
    intro ys _ h2
    cases ys with
    | nil => rfl
    | cons c cs =>
      have hc : p c = false := h2
      simp [spanP, hc]
  | cons x xs ih =>
    intro ys h1 h2
    have hx : p x = true := h1 x (by simp)
    have hrest := ih ys (fun c hc => h1 c (by simp [hc])) h2
    simp [spanP, hx, hrest]

theorem dropLit_append : ∀ (lit rest : List Char), dropLit lit (lit ++ rest) = some rest := by
  intro lit
  induction lit with
  | nil => intro rest; simp [dropLit]
  | cons l ls ih => intro rest; simp [dropLit, ih]

theorem ws1_sp (r : List Char) (h : headNotP isWs r) : ws1 (' ' :: r) = some r := by
  have : spanP isWs (' ' :: r) = ([' '], r) := by
    have := spanP_append isWs [' '] r (by intro c hc; simp at hc; subst hc; decide) h
    simpa using this
  simp [ws1, this]

theorem nonSpace1_append (tok r : List Char) (h1 : tok ≠ [])
    (h2 : ∀ c ∈ tok, isWs c = false) (h3 : headNotP (fun c => !isWs c) r) :
    nonSpace1 (tok ++ r) = some (tok, r) := by
  have hs : spanP (fun c => !isWs c) (tok ++ r) = (tok, r) := by
    apply spanP_append
    · intro c hc; simp [h2 c hc]
    · exact h3
  match tok, h1 with
  | t :: ts, _ =>
    rw [List.cons_append] at hs
    simp only [nonSpace1, List.cons_append, hs]

theorem digits1_append (ds r : List Char) (h1 : ds ≠ [])
    (h2 : ∀ c ∈ ds, isDigitChar c = true) (h3 : headNotP isDigitChar r) :
    digits1 (ds ++ r) = some (digitsVal ds, r) := by
  have hs : spanP isDigitChar (ds ++ r) = (ds, r) := spanP_append _ _ _ h2 h3
  match ds, h1 with
  | d :: ds', _ =>
    rw [List.cons_append] at hs
    simp only [digits1, List.cons_append, hs]

theorem digits1_nat (n : Nat) (r : List Char) (h : headNotP isDigitChar r) :
    digits1 (natDigits n ++ r) = some (n, r) := by
  rw [digits1_append (natDigits n) r (natDigits_ne_nil n) (natDigits_all_digits n) h,
    digitsVal_natDigits]

/-! ## The `[Mem]` snapshot grammar (`_MEM_RE`) -/

/-- Fields captured by `_MEM_RE` with Python `int` conversion applied
(the `tag` group stays a string). -/
structure MemFields where
  tag : List Char
  hf : Nat
  hm : Nat
  hl : Nat
  hi : Nat
  hin : Nat
  frag : Nat
  pf : Nat
  pm : Nat
  pl : Nat
deriving DecidableEq

/-- One regex step `\s+key(\d+)` (for instance `\s+hf=(\d+)`). -/
def keyNum (key : List Char) (s : List Char) : Option (Nat × List Char) :=
  match ws1 s with
  | none => none
  | some s1 =>
    match dropLit key s1 with
    | none => none
    | some s2 => digits1 s2

/-- Regex step `\s+(\S+)` (whitespace then a captured token). -/
def wsTok (s : List Char) : Option (List Char × List Char) :=
  match ws1 s with
  | none => none
  | some s1 => nonSpace1 s1

/-- Sequence of `\s+keyᵢ(\dᵢ+)` steps, returning captures in order. -/
def keyNumSeq : List (List Char) → List Char → Option (List Nat × List Char)
  | [], s => some ([], s)
  | key :: keys, s =>
    match keyNum key s with
    | none => none
    | some (n, s1) =>
      match keyNumSeq keys s1 with
      | none => none
      | some (ns, s2) => some (n :: ns, s2)

/-- The nine `key=` literals of `_MEM_RE`, in their fixed order. -/
def memKeys : List (List Char) :=
  ["hf=".toList, "hm=".toList, "hl=".toList, "hi=".toList, "hin=".toList,
   "frag=".toList, "pf=".toList, "pm=".toList, "pl=".toList]

/-- Embedding of `_MEM_RE.match` (anchored at the start, trailing text
allowed): literal `[Mem]` tag, a captured token, then nine fixed
`key=integer` tokens. -/
def memParse (s : List Char) : Option MemFields :=
  match dropLit "[Mem]".toList s with
  | none => none
  | some s0 =>
    match wsTok s0 with
    | none => none
    | some (tag, s1) =>
      match keyNumSeq memKeys s1 with
      | some ([hf, hm, hl, hi, hin, frag, pf, pm, pl], _) =>
        some ⟨tag, hf, hm, hl, hi, hin, frag, pf, pm, pl⟩
      | _ => none

/-- Serialized `key=value` segments: each segment is a single space, the
key literal and the canonical decimal of the value. -/
def segs : List (List Char × Nat) → List Char
  | [] => []
  | kv :: rest => ' ' :: (kv.1 ++ (natDigits kv.2 ++ segs rest))

/-- The nine key/value pairs of a `MemFields` record, in wire order. -/
def memKV (f : MemFields) : List (List Char × Nat) :=
  [("hf=".toList, f.hf), ("hm=".toList, f.hm), ("hl=".toList, f.hl),
   ("hi=".toList, f.hi), ("hin=".toList, f.hin), ("frag=".toList, f.frag),
   ("pf=".toList, f.pf), ("pm=".toList, f.pm), ("pl=".toList, f.pl)]

/-- Canonical serialization of a memory snapshot in the firmware's fixed
format (single spaces, fields in fixed order, canonical decimals): the
well-formed lines `_MEM_RE` was written to decode. -/
def mkMemLine (f : MemFields) : List Char :=
  "[Mem]".toList ++ (' ' :: (f.tag ++ segs (memKV f)))

/-- Key sanity: nonempty and starting with a non-whitespace character. -/
def keyOkB (key : List Char) : Bool :=
  match key with
  | [] => false
  | c :: _ => !isWs c

theorem segs_headNot_digit (kvs : List (List Char × Nat)) :
    headNotP isDigitChar (segs kvs) := by
  cases kvs with
  | nil => trivial
  | cons kv rest => exact (by decide : isDigitChar ' ' = false)

theorem segs_headNot_nonWs (kvs : List (List Char × Nat)) :
    headNotP (fun c => !isWs c) (segs kvs) := by
  cases kvs with
  | nil => trivial
  | cons kv rest => exact (by decide : (!isWs ' ') = false)

theorem wsTok_step (tag r : List Char) (h1 : tag ≠ [])
    (h2 : ∀ c ∈ tag, isWs c = false) (h3 : headNotP (fun c => !isWs c) r) :
    wsTok (' ' :: (tag ++ r)) = some (tag, r) := by
  cases tag with
  | nil => exact absurd rfl h1
  | cons t ts =>
    have hh : headNotP isWs ((t :: ts) ++ r) := h2 t (by simp)
    have e1 : ws1 (' ' :: ((t :: ts) ++ r)) = some ((t :: ts) ++ r) := ws1_sp _ hh
    have e2 : nonSpace1 ((t :: ts) ++ r) = some (t :: ts, r) :=
      nonSpace1_append _ r (by simp) h2 h3
    simp only [wsTok, e1, e2]

theorem keyNumSeq_segs : ∀ (kvs : List (List Char × Nat)),
    (kvs.map Prod.fst).all keyOkB = true →
    keyNumSeq (kvs.map Prod.fst) (segs kvs) = some (kvs.map Prod.snd, []) := by
  intro kvs
  induction kvs with
  | nil => intro _; rfl
  | cons kv rest ih =>
    intro hok
    simp only [List.map_cons, List.all_cons, Bool.and_eq_true] at hok
    obtain ⟨hkey, hrest⟩ := hok
    obtain ⟨k, ks, hk⟩ : ∃ k ks, kv.1 = k :: ks := by
      cases h : kv.1 with
      | nil => rw [h] at hkey; exact absurd hkey (by decide)
      | cons k ks => exact ⟨k, ks, rfl⟩
    have hkw : isWs k = false := by
      rw [hk] at hkey
      simpa [keyOkB] using hkey
    have hstep : keyNum kv.1 (segs (kv :: rest)) = some (kv.2, segs rest) := by
      show keyNum kv.1 (' ' :: (kv.1 ++ (natDigits kv.2 ++ segs rest))) = _
      have hh : headNotP isWs (kv.1 ++ (natDigits kv.2 ++ segs rest)) := by
        rw [hk]; exact hkw
      have e1 : ws1 (' ' :: (kv.1 ++ (natDigits kv.2 ++ segs rest)))
          = some (kv.1 ++ (natDigits kv.2 ++ segs rest)) := ws1_sp _ hh
      have e2 : dropLit kv.1 (kv.1 ++ (natDigits kv.2 ++ segs rest))
          = some (natDigits kv.2 ++ segs rest) := dropLit_append _ _
      have e3 : digits1 (natDigits kv.2 ++ segs rest) = some (kv.2, segs rest) :=
        digits1_nat _ _ (segs_headNot_digit rest)
      simp only [keyNum, e1, e2, e3]
    simp only [List.map_cons, keyNumSeq, hstep, ih hrest]

theorem memParse_mk (f : MemFields) (h1 : f.tag ≠ [])
    (h2 : ∀ c ∈ f.tag, isWs c = false) :
    memParse (mkMemLine f) = some f := by
  have e0 : dropLit "[Mem]".toList (mkMemLine f)
      = some (' ' :: (f.tag ++ segs (memKV f))) := dropLit_append _ _
  have e1 : wsTok (' ' :: (f.tag ++ segs (memKV f))) = some (f.tag, segs (memKV f)) :=
    wsTok_step f.tag _ h1 h2 (segs_headNot_nonWs _)
  have hkeys : (memKV f).map Prod.fst = memKeys := rfl
  have hall : ((memKV f).map Prod.fst).all keyOkB = true := by
    rw [hkeys]; decide
  have e2 := keyNumSeq_segs (memKV f) hall
  rw [hkeys] at e2
  simp only [memParse, e0, e1, e2]
  simp only [memKV, List.map_cons, List.map_nil]

/-- C6: for every well-formed memory-snapshot line (the literal `[Mem]`
tag, a nonempty whitespace-free tag token and the nine `key=integer`
tokens in fixed order, i.e. every line of the form `mkMemLine f`),
decoding it with the `_MEM_RE` grammar recovers exactly the tag and the
nine integer fields, and re-serializing those fields in the same fixed
format reproduces the original line exactly. -/
theorem mem_line_roundtrip (f : MemFields) (h1 : f.tag ≠ [])
    (h2 : ∀ c ∈ f.tag, isWs c = false) :
    memParse (mkMemLine f) = some f ∧
    (memParse (mkMemLine f)).map mkMemLine = some (mkMemLine f) := by
  have h := memParse_mk f h1 h2
  exact ⟨h, by rw [h]; rfl⟩

/-- C6 witness: the round-trip theorem applied to a concrete snapshot. -/
theorem mem_line_roundtrip_witness :
    (("boot".toList : List Char) ≠ [] ∧ ∀ c ∈ "boot".toList, isWs c = false) ∧
    memParse (mkMemLine ⟨"boot".toList, 180000, 170000, 65536, 90000, 88000, 7, 400000, 390000, 65000⟩)
      = some ⟨"boot".toList, 180000, 170000, 65536, 90000, 88000, 7, 400000, 390000, 65000⟩ :=
  ⟨⟨by decide, by decide⟩,
    (mem_line_roundtrip ⟨"boot".toList, 180000, 170000, 65536, 90000, 88000, 7, 400000, 390000, 65000⟩
      (by decide) (by decide)).1⟩


/-! ## Remaining line grammars of the decoder -/

/-- Fields of `_TRIPWIRE_RE`. -/
structure TripFields where
  tag : List Char
  hin : Nat
  threshold : Nat
deriving DecidableEq

/-- Embedding of `_TRIPWIRE_RE.match`. -/
def tripwireParse (s : List Char) : Option TripFields :=
  match dropLit "[Mem]".toList s with
  | none => none
  | some s0 =>
  match ws1 s0 with
  | none => none
  | some s1 =>
  match dropLit "TRIPWIRE fired".toList s1 with
  | none => none
  | some s2 =>
  match ws1 s2 with
  | none => none
  | some s3 =>
  match dropLit "tag=".toList s3 with
  | none => none
  | some s4 =>
  match nonSpace1 s4 with
  | none => none
  | some (tag, s5) =>
  match ws1 s5 with
  | none => none
  | some s6 =>
  match dropLit "hin=".toList s6 with
  | none => none
  | some s7 =>
  match digits1 s7 with
  | none => none
  | some (hin, s8) =>
  match dropLit "B".toList s8 with
  | none => none
  | some s9 =>
  match ws1 s9 with
  | none => none
  | some s10 =>
  match dropLit "<".toList s10 with
  | none => none
  | some s11 =>
  match ws1 s11 with
  | none => none
  | some s12 =>
  match digits1 s12 with
  | none => none
  | some (threshold, s13) =>
  match dropLit "B".toList s13 with
  | none => none
  | some _ => some ⟨tag, hin, threshold⟩

/-- Fields of `_TASK_RE`. -/
structure TaskFields where
  name : List Char
  prio : Nat
  core : Int
  stack_rem : Nat
deriving DecidableEq

/-- Embedding of `_TASK_RE.match`. -/
def taskParse (s : List Char) : Option TaskFields :=
  match dropLit "[Task]".toList s with
  | none => none
  | some s0 =>
  match ws1 s0 with
  | none => none
  | some s1 =>
  match dropLit "name=".toList s1 with
  | none => none
  | some s2 =>
  match nonSpace1 s2 with
  | none => none
  | some (name, s3) =>
  match ws1 s3 with
  | none => none
  | some s4 =>
  match dropLit "prio=".toList s4 with
  | none => none
  | some s5 =>
  match digits1 s5 with
  | none => none
  | some (prio, s6) =>
  match ws1 s6 with
  | none => none
  | some s7 =>
  match dropLit "core=".toList s7 with
  | none => none
  | some s8 =>
  match intDigits1 s8 with
  | none => none
  | some (core, s9) =>
  match ws1 s9 with
  | none => none
  | some s10 =>
  match dropLit "stack_rem=".toList s10 with
  | none => none
  | some s11 =>
  match digits1 s11 with
  | none => none
  | some (stack_rem, s12) =>
  match dropLit "B".toList s12 with
  | none => none
  | some _ => some ⟨name, prio, core, stack_rem⟩

/-- Fields of `_ASYNCTCP_STACK_RE`. -/
structure AsyncFields where
  task : List Char
  rem_units : Nat
  rem_bytes : Nat
  unit_bytes : Nat
  cfg_bytes : Nat
deriving DecidableEq

/-- Embedding of `_ASYNCTCP_STACK_RE.match`. -/
def asyncParse (s : List Char) : Option AsyncFields :=
  match dropLit "[Portal]".toList s with
  | none => none
  | some s0 =>
  match ws1 s0 with
  | none => none
  | some s1 =>
  match dropLit "AsyncTCP stack watermark:".toList s1 with
  | none => none
  | some s2 =>
  match ws1 s2 with
  | none => none
  | some s3 =>
  match dropLit "task=".toList s3 with
  | none => none
  | some s4 =>
  match nonSpace1 s4 with
  | none => none
  | some (task, s5) =>
  match ws1 s5 with
  | none => none
  | some s6 =>
  match dropLit "rem=".toList s6 with
  | none => none
  | some s7 =>
  match digits1 s7 with
  | none => none
  | some (rem_units, s8) =>
  match ws1 s8 with
  | none => none
  | some s9 =>
  match dropLit "units".toList s9 with
  | none => none
  | some s10 =>
  match ws1 s10 with
  | none => none
  | some s11 =>
  match dropLit "(".toList s11 with
  | none => none
  | some s12 =>
  match digits1 s12 with
  | none => none
  | some (rem_bytes, s13) =>
  match ws1 s13 with
  | none => none
  | some s14 =>
  match dropLit "B),".toList s14 with
  | none => none
  | some s15 =>
  match ws1 s15 with
  | none => none
  | some s16 =>
  match dropLit "unit=".toList s16 with
  | none => none
  | some s17 =>
  match digits1 s17 with
  | none => none
  | some (unit_bytes, s18) =>
  match ws1 s18 with
  | none => none
  | some s19 =>
  match dropLit "B,".toList s19 with
  | none => none
  | some s20 =>
  match ws1 s20 with
  | none => none
  | some s21 =>
  match dropLit "CONFIG_ASYNC_TCP_STACK_SIZE(raw)=".toList s21 with
  | none => none
  | some s22 =>
  match digits1 s22 with
  | none => none
  | some (cfg_bytes, _) => some ⟨task, rem_units, rem_bytes, unit_bytes, cfg_bytes⟩

/-- Try an unanchored match (`re.search`) at every start position. -/
def searchAny (m : List Char → Bool) : List Char → Bool
  | [] => m []
  | c :: rest => m (c :: rest) || searchAny m rest

/-- Regex `\d+\.\d+\.\d+\.\d+` (the argument counts remaining dots). -/
def digitsDot : Nat → List Char → Bool
  | 0, s => (digits1 s).isSome
  | k + 1, s =>
    match digits1 s with
    | some (_, '.' :: r) => digitsDot k r
    | _ => false

/-- Embedding of `_IP_RE` at one position: `Got IP:\s*` then a dotted quad. -/
def ipMatchAt (s : List Char) : Bool :=
  match dropLit "Got IP:".toList s with
  | some s1 => digitsDot 3 (spanP isWs s1).2
  | none => false

/-- Embedding of `_IP_RE.search`. -/
def ipSearch (s : List Char) : Bool := searchAny ipMatchAt s

/-- Character class `[0-9A-Za-z._-]` of `_FW_RE`. -/
def isFwChar (c : Char) : Bool :=
  isDigitChar c || (65 ≤ c.toNat && c.toNat ≤ 90) || (97 ≤ c.toNat && c.toNat ≤ 122) ||
    c = '.' || c = '_' || c = '-'

/-- Embedding of `_FW_RE` at one position: `Firmware:\s*v` then at least
one version character. -/
def fwMatchAt (s : List Char) : Bool :=
  match dropLit "Firmware:".toList s with
  | some s1 =>
    match (spanP isWs s1).2 with
    | 'v' :: s2 =>
      match spanP isFwChar s2 with
      | ([], _) => false
      | (_ :: _, _) => true
    | _ => false
  | none => false

/-- Embedding of `_FW_RE.search`. -/
def fwSearch (s : List Char) : Bool := searchAny fwMatchAt s

/-! ## Classification in `SerialFollower._run`

The reader thread evaluates each grammar with an independent `if`
statement, in source order: `_IP_RE`, `_FW_RE`, `_MEM_RE`,
`_TRIPWIRE_RE`, `_TASK_RE`, `_ASYNCTCP_STACK_RE`.  There is no
classifier for readiness or panic markers in the decoder (those are
consumed by `wait_for` and by post-run analysis respectively). -/

/-- Structured record types the reader thread can emit for one line. -/
inductive RecType where
  | network
  | firmware
  | mem
  | tripwire
  | task
  | stackWatermark
deriving DecidableEq, Fintype

/-- Whether one grammar matches a line. -/
def grammarMatch : RecType → List Char → Bool
  | RecType.network, s => ipSearch s
  | RecType.firmware, s => fwSearch s
  | RecType.mem, s => (memParse s).isSome
  | RecType.tripwire, s => (tripwireParse s).isSome
  | RecType.task, s => (taskParse s).isSome
  | RecType.stackWatermark, s => (asyncParse s).isSome

/-- The fixed source order in which `SerialFollower._run` evaluates the
six grammars (each one an independent `if`, not an `elif` chain). -/
def codeOrder : List RecType :=
  [RecType.network, RecType.firmware, RecType.mem, RecType.tripwire,
   RecType.task, RecType.stackWatermark]

/-- Structured records emitted for one decoded line, in emission order. -/
def classify (line : List Char) : List RecType :=
  (if ipSearch line then [RecType.network] else []) ++
  (if fwSearch line then [RecType.firmware] else []) ++
  (if (memParse line).isSome then [RecType.mem] else []) ++
  (if (tripwireParse line).isSome then [RecType.tripwire] else []) ++
  (if (taskParse line).isSome then [RecType.task] else []) ++
  (if (asyncParse line).isSome then [RecType.stackWatermark] else [])

/-- Per-line effects of the reader loop body in `SerialFollower._run`. -/
structure LineOutputs where
  raw : List (List Char)
  queued : List (List Char)
  structured : List (Nat × RecType)
  memJournal : List (Nat × MemFields)
  taskJournal : List (Nat × RecType)
deriving DecidableEq

/-- Embedding of the per-line body of `SerialFollower._run`: write the
line verbatim to the raw journal, push it on the live queue, then run
the six independent grammar checks, each appending a timestamped record
to the structured journal (plus the mem/task side journals). -/
def processLine (ts : Nat) (line : List Char) : LineOutputs :=
  let out : LineOutputs := ⟨[], [], [], [], []⟩
  let out := { out with raw := out.raw ++ [line] }
  let out := { out with queued := out.queued ++ [line] }
  let out :=
    if ipSearch line then
      { out with structured := out.structured ++ [(ts, RecType.network)] }
    else out
  let out :=
    if fwSearch line then
      { out with structured := out.structured ++ [(ts, RecType.firmware)] }
    else out
  let out :=
    match memParse line with
    | some f =>
      { out with structured := out.structured ++ [(ts, RecType.mem)],
                 memJournal := out.memJournal ++ [(ts, f)] }
    | none => out
  let out :=
    match tripwireParse line with
    | some _ => { out with structured := out.structured ++ [(ts, RecType.tripwire)] }
    | none => out
  let out :=
    match taskParse line with
    | some _ =>
      { out with structured := out.structured ++ [(ts, RecType.task)],
                 taskJournal := out.taskJournal ++ [(ts, RecType.task)] }
    | none => out
  match asyncParse line with
  | some _ =>
    { out with structured := out.structured ++ [(ts, RecType.stackWatermark)],
               taskJournal := out.taskJournal ++ [(ts, RecType.stackWatermark)] }
  | none => out

theorem processLine_parts (ts : Nat) (line : List Char) :
    (processLine ts line).raw = [line] ∧ (processLine ts line).queued = [line] ∧
    (processLine ts line).structured = (classify line).map (fun t => (ts, t)) := by
  cases h1 : ipSearch line <;> cases h2 : fwSearch line <;>
    cases h3 : memParse line <;> cases h4 : tripwireParse line <;>
      cases h5 : taskParse line <;> cases h6 : asyncParse line <;>
        simp [processLine, classify, h1, h2, h3, h4, h5, h6]

theorem classify_filter (line : List Char) :
    classify line = codeOrder.filter (fun t => grammarMatch t line) := by
  cases h1 : ipSearch line <;> cases h2 : fwSearch line <;>
    cases h3 : memParse line <;> cases h4 : tripwireParse line <;>
      cases h5 : taskParse line <;> cases h6 : asyncParse line <;>
        simp [classify, codeOrder, grammarMatch, List.filter, h1, h2, h3, h4, h5, h6]

theorem classify_mem_iff (line : List Char) (t : RecType) :
    t ∈ classify line ↔ grammarMatch t line = true := by
  rw [classify_filter, List.mem_filter]
  have ht : t ∈ codeOrder := by cases t <;> decide
  simp [ht]

theorem classify_nodup (line : List Char) : (classify line).Nodup := by
  rw [classify_filter]
  exact List.Nodup.filter _ (by decide)

/-- C4 counterexample: the line `Firmware: v1.0 Got IP: 192.168.1.2`
matches both the network grammar and the firmware grammar, so the reader
emits two structured classifications for it — refuting the claimed
first-match-wins precedence (Mem > Tripwire > Task > StackWatermark >
Network > Firmware > Ready > Panic) under which every line yields at
most one classification. -/
theorem classify_two_records_counterexample :
    classify "Firmware: v1.0 Got IP: 192.168.1.2".toList
        = [RecType.network, RecType.firmware] ∧
      ¬ (classify "Firmware: v1.0 Got IP: 192.168.1.2".toList).length ≤ 1 :=
  ⟨by decide, by decide⟩

/-- C4 (amended): `SerialFollower._run` evaluates the six grammars with
independent `if` statements, in the fixed source order Network >
Firmware > Mem > Tripwire > Task > StackWatermark (no Ready or Panic
classifier exists in the decoder); every matching grammar emits exactly
one structured record, so a line is classified once per matching grammar
(possibly several times), never re-evaluated by a different precedence. -/
theorem classification_each_grammar (line : List Char) :
    classify line = codeOrder.filter (fun t => grammarMatch t line) ∧
    (∀ t, t ∈ classify line ↔ grammarMatch t line = true) ∧
    (classify line).Nodup :=
  ⟨classify_filter line, fun t => classify_mem_iff line t, classify_nodup line⟩

/-- C7: every decoded line is appended verbatim exactly once to the raw
journal and pushed exactly once to the live queue; a line matching no
grammar yields zero structured-journal entries; the structured entries
are exactly one per matching grammar, each carrying the ingestion
timestamp. -/
theorem line_journal_exactly_once (ts : Nat) (line : List Char) :
    (processLine ts line).raw = [line] ∧
    (processLine ts line).queued = [line] ∧
    ((∀ t, grammarMatch t line = false) → (processLine ts line).structured = []) ∧
    (processLine ts line).structured = (classify line).map (fun t => (ts, t)) ∧
    (∀ e ∈ (processLine ts line).structured, e.1 = ts) := by
  obtain ⟨hraw, hq, hs⟩ := processLine_parts ts line
  refine ⟨hraw, hq, ?_, hs, ?_⟩
  · intro hnone
    rw [hs, classify_filter]
    have : codeOrder.filter (fun t => grammarMatch t line) = [] := by
      rw [List.filter_eq_nil_iff]
      intro t _
      simp [hnone t]
    simp [this]
  · intro e he
    rw [hs] at he
    obtain ⟨t, _, rfl⟩ := List.mem_map.mp he
    rfl

/-- C7 witness: a line matching no grammar produces one raw entry, one
queue entry and no structured entries. -/
theorem line_journal_exactly_once_witness :
    (processLine 7 "hello world".toList).raw = ["hello world".toList] ∧
    (processLine 7 "hello world".toList).structured = [] :=
  ⟨(line_journal_exactly_once 7 "hello world".toList).1,
   (line_journal_exactly_once 7 "hello world".toList).2.2.1 (by decide)⟩

/-! ## Crash-marker scan (`_PANIC_MARKERS`, `Harness._detect_panic_from_serial`) -/

/-- ASCII lowercasing (the case-insensitivity of the marker regexes on
the harness's ASCII log lines). -/
def asciiLower (c : Char) : Char :=
  if 65 ≤ c.toNat && c.toNat ≤ 90 then Char.ofNat (c.toNat + 32) else c

def lowerList (s : List Char) : List Char := s.map asciiLower

/-- Whether the first list starts the second one. -/
def startsWithChars : List Char → List Char → Bool
  | [], _ => true
  | _ :: _, [] => false
  | a :: as, b :: bs => a = b && startsWithChars as bs

/-- Substring occurrence (unanchored `re.search` of a literal). -/
def containsSub (needle hay : List Char) : Bool :=
  searchAny (startsWithChars needle) hay

/-- Apostrophe character (for the `panic'ed` marker). -/
def apos : Char := Char.ofNat 39

def panicEdNeedle : List Char := "panic".toList ++ apos :: "ed".toList

/-- First marker kind matching a line: the inner
`for kind, rx in _PANIC_MARKERS` loop, checking the fixed ordered list
of (kind, matcher) pairs and returning the first match.  All matchers
are case-insensitive substring tests; the `backtrace` marker is anchored
at the start of the line. -/
def firstMarkerKind (s : List Char) : Option String :=
  if containsSub "guru meditation error".toList (lowerList s) then some "guru_meditation"
  else if containsSub panicEdNeedle (lowerList s) then some "panic"
  else if containsSub "stack canary watchpoint triggered".toList (lowerList s) then some "stack_canary"
  else if startsWithChars "backtrace:".toList (lowerList s) then some "backtrace"
  else if containsSub "abort()".toList (lowerList s) then some "abort"
  else if containsSub "brownout".toList (lowerList s) then some "brownout"
  else none

/-- Result shape of `_detect_panic_from_serial`; `err` models the
exception branch (unreadable raw log). -/
structure PanicResult where
  detected : Bool
  kind : Option String := none
  line : Option (List Char) := none
  line_no : Option Nat := none
  err : Bool := false
deriving DecidableEq

def noPanic : PanicResult := ⟨false, none, none, none, false⟩

/-- Scan lines with 1-based numbering starting at `idx`; the first line
matching any marker wins. -/
def detectPanicFrom : List (List Char) → Nat → PanicResult
  | [], _ => noPanic
  | s :: rest, idx =>
    match firstMarkerKind s with
    | some k => ⟨true, some k, some s, some idx, false⟩
    | none => detectPanicFrom rest (idx + 1)

/-- Embedding of `Harness._detect_panic_from_serial`; the `none` input
models an unreadable `serial.log` (the `except` path). -/
def detectPanic (serialLines : Option (List (List Char))) : PanicResult :=
  match serialLines with
  | none => { noPanic with err := true }
  | some lines => detectPanicFrom lines 1

theorem detectPanicFrom_append (pre : List (List Char))
    (hpre : ∀ s ∈ pre, firstMarkerKind s = none) :
    ∀ (rest : List (List Char)) (k : Nat),
      detectPanicFrom (pre ++ rest) k = detectPanicFrom rest (k + pre.length) := by
  induction pre with
  | nil => intro rest k; simp [detectPanicFrom]
  | cons p ps ih =>
    intro rest k
    have hp : firstMarkerKind p = none := hpre p (by simp)
    have hps : ∀ s ∈ ps, firstMarkerKind s = none := fun s hs => hpre s (by simp [hs])
    have hstep : detectPanicFrom ((p :: ps) ++ rest) k = detectPanicFrom (ps ++ rest) (k + 1) := by
      show (match firstMarkerKind p with
        | some k0 => (⟨true, some k0, some p, some k, false⟩ : PanicResult)
        | none => detectPanicFrom (ps ++ rest) (k + 1)) = detectPanicFrom (ps ++ rest) (k + 1)
      rw [hp]
    rw [hstep, ih hps rest (k + 1)]
    have harith : k + 1 + ps.length = k + (p :: ps).length := by
      simp only [List.length_cons]
      omega
    rw [harith]

theorem detectPanicFrom_none : ∀ (lines : List (List Char)) (k : Nat),
    (∀ s ∈ lines, firstMarkerKind s = none) → detectPanicFrom lines k = noPanic := by
  intro lines
  induction lines with
  | nil => intro k _; rfl
  | cons l ls ih =>
    intro k h
    have hl : firstMarkerKind l = none := h l (by simp)
    simp only [detectPanicFrom, hl]
    exact ih (k + 1) (fun s hs => h s (by simp [hs]))

theorem guru_first (l : List Char)
    (h : containsSub "guru meditation error".toList (lowerList l) = true) :
    firstMarkerKind l = some "guru_meditation" := by
  simp only [firstMarkerKind]
  rw [h]
  simp

/-- C8: the panic scan reports the kind and 1-based line number of the
first line containing any marker (kind being the first configured
category matching that line); in particular a raw log whose line 42 is
the first marker line and contains `Guru Meditation Error` yields
`line_no = 42` with kind `guru_meditation`; a log with no marker at all
yields `detected = false`. -/
theorem panic_detection_spec :
    (∀ (pre post : List (List Char)) (l : List Char) (k : String),
        (∀ s ∈ pre, firstMarkerKind s = none) →
        firstMarkerKind l = some k →
        detectPanic (some (pre ++ l :: post))
          = ⟨true, some k, some l, some (pre.length + 1), false⟩) ∧
    (∀ (pre post : List (List Char)) (l : List Char),
        (∀ s ∈ pre, firstMarkerKind s = none) →
        containsSub "guru meditation error".toList (lowerList l) = true →
        detectPanic (some (pre ++ l :: post))
          = ⟨true, some "guru_meditation", some l, some (pre.length + 1), false⟩) ∧
    (∀ lines : List (List Char), (∀ s ∈ lines, firstMarkerKind s = none) →
        (detectPanic (some lines)).detected = false) := by
  have main : ∀ (pre post : List (List Char)) (l : List Char) (k : String),
      (∀ s ∈ pre, firstMarkerKind s = none) →
      firstMarkerKind l = some k →
      detectPanic (some (pre ++ l :: post))
        = ⟨true, some k, some l, some (pre.length + 1), false⟩ := by
    intro pre post l k hpre hl
    show detectPanicFrom (pre ++ l :: post) 1 = _
    rw [detectPanicFrom_append pre hpre (l :: post) 1]
    simp only [detectPanicFrom, hl]
    congr 2
    omega
  refine ⟨main, ?_, ?_⟩
  · intro pre post l hpre hg
    exact main pre post l "guru_meditation" hpre (guru_first l hg)
  · intro lines h
    show (detectPanicFrom lines 1).detected = false
    rw [detectPanicFrom_none lines 1 h]
    rfl

/-- C8 witness: a 42-line log whose line 42 contains
`Guru Meditation Error` yields kind `guru_meditation` at line 42, and a
marker-free log yields no detection. -/
theorem panic_detection_spec_witness :
    detectPanic (some (List.replicate 41 "[Main] ok".toList
        ++ ["Guru Meditation Error: Core 1 panic".toList]))
      = ⟨true, some "guru_meditation", some "Guru Meditation Error: Core 1 panic".toList,
          some 42, false⟩ ∧
    (detectPanic (some ["[Main] ok".toList, "all fine".toList])).detected = false :=
  ⟨by
    have h := panic_detection_spec.2.1 (List.replicate 41 "[Main] ok".toList) []
      "Guru Meditation Error: Core 1 panic".toList (by decide) (by decide)
    simpa using h,
   panic_detection_spec.2.2 _ (by decide)⟩

/-! ## `Harness.wait_for` (PatternWaiter)

The single-producer FIFO queue is abstracted as the list of lines that
arrive within the timeout window, in arrival order; time is abstracted
away (the timeout is reaching the end of that list).  The function
returns the matched line (or `none` on timeout) together with the lines
left in the queue for the next call. -/

/-- Embedding of `Harness.wait_for`: drain the queue in order, dropping
non-matching lines, until a match or queue exhaustion (timeout). -/
def waitFor (p : String → Bool) : List String → Option String × List String
  | [] => (none, [])
  | l :: rest =>
    match p l with
    | true => (some l, rest)
    | false => waitFor p rest

theorem waitFor_fst_find (p : String → Bool) :
    ∀ q : List String, (waitFor p q).1 = q.find? p := by
  intro q
  induction q with
  | nil => rfl
  | cons l ls ih =>
    cases hp : p l with
    | true => simp [waitFor, List.find?, hp]
    | false => simp [waitFor, List.find?, hp, ih]

theorem waitFor_some_iff (p : String → Bool) :
    ∀ (q : List String) (m : String) (rest : List String),
      waitFor p q = (some m, rest) ↔
        ∃ pre, q = pre ++ m :: rest ∧ (∀ l ∈ pre, p l = false) ∧ p m = true := by
  intro q
  induction q with
  | nil =>
    intro m rest
    constructor
    · intro h
      have h1 : (none : Option String) = some m := ((Prod.mk.injEq _ _ _ _).mp h).1
      exact absurd h1 (by simp)
    · rintro ⟨pre, heq, -, -⟩
      exact absurd heq (by simp)
  | cons l ls ih =>
    intro m rest
    cases hp : p l with
    | true =>
      simp only [waitFor, hp]
      constructor
      · intro h
        obtain ⟨h1, h2⟩ := (Prod.mk.injEq _ _ _ _).mp h
        injection h1 with hm
        subst hm
        subst h2
        exact ⟨[], rfl, by simp, hp⟩
      · rintro ⟨pre, heq, hall, hm⟩
        cases pre with
        | nil =>
          simp only [List.nil_append] at heq
          injection heq with h1 h2
          subst h1
          subst h2
          rfl
        | cons a pre' =>
          simp only [List.cons_append] at heq
          injection heq with h1 h2
          subst h1
          have hfalse := hall l (by simp)
          simp [hp] at hfalse
    | false =>
      simp only [waitFor, hp]
      rw [ih m rest]
      constructor
      · rintro ⟨pre, rfl, hall, hm⟩
        refine ⟨l :: pre, by simp, ?_, hm⟩
        intro x hx
        rcases List.mem_cons.mp hx with rfl | hx
        · exact hp
        · exact hall x hx
      · rintro ⟨pre, heq, hall, hm⟩
        cases pre with
        | nil =>
          simp only [List.nil_append] at heq
          injection heq with h1 h2
          subst h1
          exact absurd hm (by simp [hp])
        | cons a pre' =>
          simp only [List.cons_append] at heq
          injection heq with h1 h2
          subst h1
          exact ⟨pre', h2, fun x hx => hall x (by simp [hx]), hm⟩

theorem waitFor_none_iff (p : String → Bool) :
    ∀ (q : List String) (rest : List String),
      waitFor p q = (none, rest) ↔ rest = [] ∧ ∀ l ∈ q, p l = false := by
  intro q
  induction q with
  | nil =>
    intro rest
    constructor
    · intro h
      refine ⟨(((Prod.mk.injEq _ _ _ _).mp h).2).symm, ?_⟩
      intro x hx
      exact absurd hx (List.not_mem_nil x)
    · rintro ⟨rfl, -⟩
      rfl
  | cons l ls ih =>
    intro rest
    cases hp : p l with
    | true =>
      simp only [waitFor, hp]
      constructor
      · intro h
        have h1 : (some l : Option String) = none := ((Prod.mk.injEq _ _ _ _).mp h).1
        exact absurd h1 (by simp)
      · rintro ⟨-, hall⟩
        have hfalse := hall l (by simp)
        simp [hp] at hfalse
    | false =>
      simp only [waitFor, hp]
      rw [ih rest]
      constructor
      · rintro ⟨rfl, hall⟩
        refine ⟨rfl, ?_⟩
        intro x hx
        rcases List.mem_cons.mp hx with rfl | hx
        · exact hp
        · exact hall x hx
      · rintro ⟨rfl, hall⟩
        exact ⟨rfl, fun x hx => hall x (by simp [hx])⟩

/-- C2: `wait_for` dequeues lines in arrival order and returns the first
matching line (it is the queue's first match); on success the remaining
queue is exactly the suffix after the matched line, so consumed lines
(the non-matching prefix and the match itself) are never re-delivered
and a subsequent call sees exactly the lines not yet consumed; if no
matching line arrives within the window it returns `none`, having
drained the window's lines. -/
theorem wait_for_fifo_spec :
    (∀ (p : String → Bool) (q : List String), (waitFor p q).1 = q.find? p) ∧
    (∀ (p : String → Bool) (q : List String) (m : String) (rest : List String),
        waitFor p q = (some m, rest) ↔
          ∃ pre, q = pre ++ m :: rest ∧ (∀ l ∈ pre, p l = false) ∧ p m = true) ∧
    (∀ (p : String → Bool) (q : List String) (rest : List String),
        waitFor p q = (none, rest) ↔ rest = [] ∧ ∀ l ∈ q, p l = false) :=
  ⟨fun p q => waitFor_fst_find p q,
   fun p q m rest => waitFor_some_iff p q m rest,
   fun p q rest => waitFor_none_iff p q rest⟩

/-- C2 witness: on the queue `[a, b, c]` a wait for `b` consumes `a` and
`b`, returns `b` and leaves exactly `[c]`; a wait for `z` on the rest
times out with an empty remainder. -/
theorem wait_for_fifo_spec_witness :
    waitFor (fun s => s == "b") ["a", "b", "c"] = (some "b", ["c"]) ∧
    waitFor (fun s => s == "z") ["c"] = (none, []) :=
  ⟨(wait_for_fifo_spec.2.1 (fun s => s == "b") ["a", "b", "c"] "b" ["c"]).mpr
      ⟨["a"], rfl, by decide, by decide⟩,
   (wait_for_fifo_spec.2.2 (fun s => s == "z") ["c"] []).mpr ⟨rfl, by decide⟩⟩

/-! ## `Harness.capture_health_when_stable` (HealthSampler)

HTTP probes are abstracted as a stream `probe : Nat → Option HealthDoc`
consumed in order (`none` = a probe for which `capture_health` returned
no reading).  Wall-clock time is abstracted to the settle sleeps: the
`while time.time() - start < max_wait_s` check sees `elapsed`, advanced
by `settle` once per iteration.  The structural `fuel` argument only
bounds the recursion: for `settle ≥ 1` at most `maxWait` iterations can
pass the while-check, so the initial fuel `maxWait + 1` is never
exhausted and the fuel-0 branch is unreachable. -/

/-- A parsed `/api/health` JSON document.  A field is `none` when
`int()` on it would raise (the `except: return b` branch); a missing
field is `some 0` (`a.get(key, 0)`).  `uid` stands for the rest of the
document, so distinct probes are distinguishable. -/
structure HealthDoc where
  heap_internal_free : Option Int
  psram_free : Option Int
  uid : Nat
deriving DecidableEq

/-- The stability test between two samples: `none` models the `except`
branch (a field `int()` cannot convert), otherwise whether both deltas
are within tolerance. -/
def pairCheck (a b : HealthDoc) (tolI tolP : Nat) : Option Bool :=
  match a.heap_internal_free, b.heap_internal_free, a.psram_free, b.psram_free with
  | some ia, some ib, some pa, some pb =>
    some (decide ((ib - ia).natAbs ≤ tolI ∧ (pb - pa).natAbs ≤ tolP))
  | _, _, _, _ => none

/-- The `while` loop of `capture_health_when_stable`: each iteration
samples a fresh pair `A = probe (2k)`, `B = probe (2k+1)`, returns
`none` if either probe failed, returns `B` if the pair is stable (or
unparsable), otherwise retries with `B` only remembered as `last`. -/
def captureGo (probe : Nat → Option HealthDoc) (settle maxWait tolI tolP : Nat) :
    Nat → Nat → Nat → Option HealthDoc → Option HealthDoc
  | 0, _, _, last => last
  | fuel + 1, k, elapsed, last =>
    if elapsed < maxWait then
      match probe (2 * k) with
      | none => none
      | some a =>
        match probe (2 * k + 1) with
        | none => none
        | some b =>
          match pairCheck a b tolI tolP with
          | none => some b
          | some true => some b
          | some false =>
            captureGo probe settle maxWait tolI tolP fuel (k + 1) (elapsed + settle) (some b)
    else last

/-- Embedding of `Harness.capture_health_when_stable`. -/
def captureHealthWhenStable (probe : Nat → Option HealthDoc)
    (settle maxWait tolI tolP : Nat) : Option HealthDoc :=
  captureGo probe settle maxWait tolI tolP (maxWait + 1) 0 0 none

/-- Follows the spec's words (C1): "sample A; sleep a fixed settle
interval; sample B; accept B if both ... deltas from A are within
configured tolerance; otherwise repeat with B as the new baseline,
bounded by a maximum wait budget — past the budget, return the last
sample obtained".  Each retry samples only one new probe, comparing it
against the previous sample as baseline. -/
def specBaselineGo (probe : Nat → Option HealthDoc) (settle maxWait tolI tolP : Nat) :
    Nat → Nat → Nat → HealthDoc → Option HealthDoc
  | 0, _, _, baseline => some baseline
  | fuel + 1, idx, elapsed, baseline =>
    if elapsed < maxWait then
      match probe idx with
      | none => none
      | some b =>
        match pairCheck baseline b tolI tolP with
        | none => some b
        | some true => some b
        | some false =>
          specBaselineGo probe settle maxWait tolI tolP fuel (idx + 1) (elapsed + settle) b
    else some baseline

/-- Spec-side sampler (baseline-carrying), for comparison with the
source-side `captureHealthWhenStable`. -/
def specBaselineCapture (probe : Nat → Option HealthDoc)
    (settle maxWait tolI tolP : Nat) : Option HealthDoc :=
  match probe 0 with
  | none => none
  | some a => specBaselineGo probe settle maxWait tolI tolP (maxWait + 1) 1 0 a

/-- The pair of samples of iteration `i` (the code consumes two fresh
probes per iteration). -/
def pairAt (probe : Nat → Option HealthDoc) (i : Nat) : Option (HealthDoc × HealthDoc) :=
  match probe (2 * i), probe (2 * i + 1) with
  | some a, some b => some (a, b)
  | _, _ => none

/-- Stability verdict of iteration `i`'s fresh pair. -/
def stableAt (probe : Nat → Option HealthDoc) (tolI tolP i : Nat) : Option Bool :=
  match pairAt probe i with
  | some ab => pairCheck ab.1 ab.2 tolI tolP
  | none => none

/-- Probe stream separating the two samplers: internal-free values
0, 100, 100, 300, then constantly 300 (PSRAM constantly 0). -/
def probeCEvals : Nat → Int
  | 0 => 0
  | 1 => 100
  | 2 => 100
  | _ => 300

def probeCE (i : Nat) : Option HealthDoc := some ⟨some (probeCEvals i), some 0, i⟩

/-- C1 counterexample: with zero tolerances on the probe stream
`probeCE`, the code compares the fresh pairs (0,100), (100,300),
(300,300) and returns the sixth sample (uid 5), while the spec's
baseline-carrying algorithm compares (0,100), (100,100) and returns the
third sample (uid 2): the code does **not** repeat with B as the new
baseline — it re-samples a fresh pair each iteration. -/
theorem capture_baseline_counterexample :
    captureHealthWhenStable probeCE 1 10 0 0 = some ⟨some 300, some 0, 5⟩ ∧
    specBaselineCapture probeCE 1 10 0 0 = some ⟨some 100, some 0, 2⟩ ∧
    captureHealthWhenStable probeCE 1 10 0 0 ≠ specBaselineCapture probeCE 1 10 0 0 :=
  ⟨by decide, by decide, by decide⟩

theorem stableAt_decomp (probe : Nat → Option HealthDoc) (tolI tolP i : Nat) (v : Bool)
    (h : stableAt probe tolI tolP i = some v) :
    ∃ a b, probe (2 * i) = some a ∧ probe (2 * i + 1) = some b ∧
      pairCheck a b tolI tolP = some v := by
  cases hpa : probe (2 * i) with
  | none => simp [stableAt, pairAt, hpa] at h
  | some a =>
    cases hpb : probe (2 * i + 1) with
    | none => simp [stableAt, pairAt, hpa, hpb] at h
    | some b =>
      refine ⟨a, b, rfl, rfl, ?_⟩
      simpa [stableAt, pairAt, hpa, hpb] using h

theorem captureGo_advance (probe : Nat → Option HealthDoc) (settle maxWait tolI tolP : Nat) :
    ∀ (i fuel k elapsed : Nat) (last : Option HealthDoc),
      i ≤ fuel →
      (∀ j, j < i → elapsed + j * settle < maxWait) →
      (∀ j, j < i → stableAt probe tolI tolP (k + j) = some false) →
      captureGo probe settle maxWait tolI tolP fuel k elapsed last
        = captureGo probe settle maxWait tolI tolP (fuel - i) (k + i) (elapsed + i * settle)
            (if i = 0 then last else probe (2 * (k + i) - 1)) := by
  intro i
  induction i with
  | zero =>
    intro fuel k elapsed last _ _ _
    simp
  | succ i ih =>
    intro fuel k elapsed last hfuel htime hstable
    match fuel, hfuel with
    | f + 1, hfuel =>
      have h0 : stableAt probe tolI tolP k = some false := by
        have h1 := hstable 0 (by omega)
        simpa using h1
      obtain ⟨a, b, ha, hb, hchk⟩ := stableAt_decomp probe tolI tolP k false h0
      have hlt : elapsed < maxWait := by
        have h1 := htime 0 (by omega)
        simpa using h1
      have hstep : captureGo probe settle maxWait tolI tolP (f + 1) k elapsed last
          = captureGo probe settle maxWait tolI tolP f (k + 1) (elapsed + settle) (some b) := by
        simp [captureGo, hlt, ha, hb, hchk]
      rw [hstep]
      have htime2 : ∀ j, j < i → (elapsed + settle) + j * settle < maxWait := by
        intro j hj
        have h2 := htime (j + 1) (by omega)
        have heq : elapsed + (j + 1) * settle = elapsed + settle + j * settle := by ring
        rw [heq] at h2
        exact h2
      have hstable2 : ∀ j, j < i → stableAt probe tolI tolP ((k + 1) + j) = some false := by
        intro j hj
        have h2 := hstable (j + 1) (by omega)
        have heq : k + (j + 1) = k + 1 + j := by omega
        rw [heq] at h2
        exact h2
      rw [ih f (k + 1) (elapsed + settle) (some b) (by omega) htime2 hstable2]
      have e4 : (if i = 0 then (some b : Option HealthDoc) else probe (2 * (k + 1 + i) - 1))
          = probe (2 * (k + (i + 1)) - 1) := by
        cases i with
        | zero =>
          have h3 : 2 * (k + (0 + 1)) - 1 = 2 * k + 1 := by omega
          rw [h3, hb]
          simp
        | succ i0 =>
          rw [if_neg (by omega : ¬ i0 + 1 = 0)]
          have h3 : 2 * (k + 1 + (i0 + 1)) - 1 = 2 * (k + (i0 + 1 + 1)) - 1 := by omega
          rw [h3]
      rw [e4]
      have e1 : f - i = f + 1 - (i + 1) := by omega
      have e2 : k + 1 + i = k + (i + 1) := by omega
      have e3 : elapsed + settle + i * settle = elapsed + (i + 1) * settle := by ring
      rw [e1, e2, e3]
      rw [if_neg (by omega : ¬ i + 1 = 0)]

theorem captureStable_first (probe : Nat → Option HealthDoc)
    (settle maxWait tolI tolP i : Nat) (hs : 1 ≤ settle)
    (hunstable : ∀ j, j < i → stableAt probe tolI tolP j = some false)
    (hstable : stableAt probe tolI tolP i = some true)
    (hbudget : i * settle < maxWait) :
    captureHealthWhenStable probe settle maxWait tolI tolP = probe (2 * i + 1) := by
  obtain ⟨a, b, ha, hb, hchk⟩ := stableAt_decomp probe tolI tolP i true hstable
  have hile : i ≤ maxWait := by
    have h1 : i * 1 ≤ i * settle := Nat.mul_le_mul (le_refl i) hs
    rw [Nat.mul_one] at h1
    omega
  have hadv := captureGo_advance probe settle maxWait tolI tolP i (maxWait + 1) 0 0 none
    (by omega)
    (fun j hj => by
      have h1 : j * settle ≤ i * settle := Nat.mul_le_mul (by omega) (le_refl settle)
      omega)
    (fun j hj => by simpa using hunstable j hj)
  rw [captureHealthWhenStable, hadv]
  obtain ⟨g, hg⟩ : ∃ g, maxWait + 1 - i = g + 1 := ⟨maxWait - i, by omega⟩
  rw [hg]
  have hk : (0 : Nat) + i = i := by omega
  rw [hk]
  simp [captureGo, hbudget, ha, hb, hchk]

theorem captureStable_budget (probe : Nat → Option HealthDoc)
    (settle maxWait tolI tolP N : Nat) (hs : 1 ≤ settle) (hN : 0 < N)
    (hlast : (N - 1) * settle < maxWait) (hcap : maxWait ≤ N * settle)
    (hunstable : ∀ j, j < N → stableAt probe tolI tolP j = some false) :
    captureHealthWhenStable probe settle maxWait tolI tolP = probe (2 * N - 1) := by
  have hNle : N ≤ maxWait := by
    have h1 : (N - 1) * 1 ≤ (N - 1) * settle := Nat.mul_le_mul (le_refl (N - 1)) hs
    rw [Nat.mul_one] at h1
    omega
  have hadv := captureGo_advance probe settle maxWait tolI tolP N (maxWait + 1) 0 0 none
    (by omega)
    (fun j hj => by
      have h1 : j * settle ≤ (N - 1) * settle := Nat.mul_le_mul (by omega) (le_refl settle)
      omega)
    (fun j hj => by simpa using hunstable j hj)
  rw [captureHealthWhenStable, hadv]
  obtain ⟨g, hg⟩ : ∃ g, maxWait + 1 - N = g + 1 := ⟨maxWait - N, by omega⟩
  rw [hg]
  have hif : (if N = 0 then (none : Option HealthDoc) else probe (2 * (0 + N) - 1))
      = probe (2 * N - 1) := by
    rw [if_neg (by omega : ¬ N = 0)]
    have h3 : 2 * (0 + N) - 1 = 2 * N - 1 := by omega
    rw [h3]
  rw [hif]
  have hnotlt : ¬ (N * settle < maxWait) := by omega
  simp [captureGo, hnotlt]

theorem captureStable_fail_a (probe : Nat → Option HealthDoc)
    (settle maxWait tolI tolP i : Nat) (hs : 1 ≤ settle)
    (hunstable : ∀ j, j < i → stableAt probe tolI tolP j = some false)
    (hbudget : i * settle < maxWait) (hfail : probe (2 * i) = none) :
    captureHealthWhenStable probe settle maxWait tolI tolP = none := by
  have hile : i ≤ maxWait := by
    have h1 : i * 1 ≤ i * settle := Nat.mul_le_mul (le_refl i) hs
    rw [Nat.mul_one] at h1
    omega
  have hadv := captureGo_advance probe settle maxWait tolI tolP i (maxWait + 1) 0 0 none
    (by omega)
    (fun j hj => by
      have h1 : j * settle ≤ i * settle := Nat.mul_le_mul (by omega) (le_refl settle)
      omega)
    (fun j hj => by simpa using hunstable j hj)
  rw [captureHealthWhenStable, hadv]
  obtain ⟨g, hg⟩ : ∃ g, maxWait + 1 - i = g + 1 := ⟨maxWait - i, by omega⟩
  rw [hg]
  have hk : (0 : Nat) + i = i := by omega
  rw [hk]
  simp [captureGo, hbudget, hfail]

theorem captureStable_fail_b (probe : Nat → Option HealthDoc)
    (settle maxWait tolI tolP i : Nat) (a : HealthDoc) (hs : 1 ≤ settle)
    (hunstable : ∀ j, j < i → stableAt probe tolI tolP j = some false)
    (hbudget : i * settle < maxWait) (ha : probe (2 * i) = some a)
    (hfail : probe (2 * i + 1) = none) :
    captureHealthWhenStable probe settle maxWait tolI tolP = none := by
  have hile : i ≤ maxWait := by
    have h1 : i * 1 ≤ i * settle := Nat.mul_le_mul (le_refl i) hs
    rw [Nat.mul_one] at h1
    omega
  have hadv := captureGo_advance probe settle maxWait tolI tolP i (maxWait + 1) 0 0 none
    (by omega)
    (fun j hj => by
      have h1 : j * settle ≤ i * settle := Nat.mul_le_mul (by omega) (le_refl settle)
      omega)
    (fun j hj => by simpa using hunstable j hj)
  rw [captureHealthWhenStable, hadv]
  obtain ⟨g, hg⟩ : ∃ g, maxWait + 1 - i = g + 1 := ⟨maxWait - i, by omega⟩
  rw [hg]
  have hk : (0 : Nat) + i = i := by omega
  rw [hk]
  simp [captureGo, hbudget, ha, hfail]

/-- C1 (amended): the stability-gated capture samples a fresh pair
(A, B) each iteration while the elapsed budget allows; it returns B
exactly at the first iteration whose pair is within both tolerances,
not earlier; when a pair is unstable it retries with a **fresh** pair —
the unstable B is kept only as the fallback `last` sample, **not** as
the next baseline; once the budget is exhausted it returns the last B
sampled; and a failed probe (no reading) at either sample of any
iteration reached makes the whole capture return `none`. -/
theorem capture_health_stability_amended :
    (∀ (probe : Nat → Option HealthDoc) (settle maxWait tolI tolP i : Nat),
        1 ≤ settle →
        (∀ j, j < i → stableAt probe tolI tolP j = some false) →
        stableAt probe tolI tolP i = some true →
        i * settle < maxWait →
        captureHealthWhenStable probe settle maxWait tolI tolP = probe (2 * i + 1)) ∧
    (∀ (probe : Nat → Option HealthDoc) (settle maxWait tolI tolP N : Nat),
        1 ≤ settle → 0 < N →
        (N - 1) * settle < maxWait → maxWait ≤ N * settle →
        (∀ j, j < N → stableAt probe tolI tolP j = some false) →
        captureHealthWhenStable probe settle maxWait tolI tolP = probe (2 * N - 1)) ∧
    (∀ (probe : Nat → Option HealthDoc) (settle maxWait tolI tolP i : Nat),
        1 ≤ settle →
        (∀ j, j < i → stableAt probe tolI tolP j = some false) →
        i * settle < maxWait → probe (2 * i) = none →
        captureHealthWhenStable probe settle maxWait tolI tolP = none) ∧
    (∀ (probe : Nat → Option HealthDoc) (settle maxWait tolI tolP i : Nat) (a : HealthDoc),
        1 ≤ settle →
        (∀ j, j < i → stableAt probe tolI tolP j = some false) →
        i * settle < maxWait → probe (2 * i) = some a → probe (2 * i + 1) = none →
        captureHealthWhenStable probe settle maxWait tolI tolP = none) :=
  ⟨fun probe settle maxWait tolI tolP i => captureStable_first probe settle maxWait tolI tolP i,
   fun probe settle maxWait tolI tolP N => captureStable_budget probe settle maxWait tolI tolP N,
   fun probe settle maxWait tolI tolP i => captureStable_fail_a probe settle maxWait tolI tolP i,
   fun probe settle maxWait tolI tolP i a => captureStable_fail_b probe settle maxWait tolI tolP i a⟩

/-- Constant-memory probe stream (immediately stable). -/
def probeConst (i : Nat) : Option HealthDoc := some ⟨some 5, some 7, i⟩

/-- Failing probe stream (HTTP failure on every probe). -/
def probeNone (_ : Nat) : Option HealthDoc := none

/-- C1 witness: the amended theorem applied to concrete streams — an
immediately-stable stream returns the second sample; a never-stable
stream returns the last sample once the budget is exhausted; a failing
probe yields no reading. -/
theorem capture_health_stability_amended_witness :
    captureHealthWhenStable probeConst 1 10 0 0 = some ⟨some 5, some 7, 1⟩ ∧
    captureHealthWhenStable probeCE 1 2 0 0 = some ⟨some 300, some 0, 3⟩ ∧
    captureHealthWhenStable probeNone 1 5 0 0 = none :=
  ⟨capture_health_stability_amended.1 probeConst 1 10 0 0 0 (by decide)
      (fun j hj => absurd hj (Nat.not_lt_zero j)) (by decide) (by decide),
   capture_health_stability_amended.2.1 probeCE 1 2 0 0 2 (by decide) (by decide)
      (by decide) (by decide) (by decide),
   capture_health_stability_amended.2.2.1 probeNone 1 5 0 0 0 (by decide)
      (fun j hj => absurd hj (Nat.not_lt_zero j)) (by decide) rfl⟩

/-! ## `Harness.run` exit paths (ScenarioEngine finalization)

`Harness.run` is a single `try: ... finally: self.serial.stop()`.  The
scenario dispatch's outcome (a return code, or a raised exception) is
the input; the summary writes (`summary.json` then `summary.md`) are
statements placed *inside* the `try` block *after* the dispatch, so they
execute only when the dispatch returns normally, while `serial.stop()`
runs on every exit path.  There is no `except` clause anywhere in
`run` or in `main`, so a raised exception propagates out of the process
(Python then exits with status 1). -/

inductive RunEff where
  | serialStart
  | summaryJson
  | summaryMd
  | serialStop
deriving DecidableEq

/-- Embedding of `Harness.run`: result and ordered effect trace. -/
def harnessRun (scenarioResult : Except String Int) : Except String Int × List RunEff :=
  let body : Except String Int × List RunEff :=
    match scenarioResult with
    | Except.ok rc =>
      (Except.ok rc, [RunEff.serialStart, RunEff.summaryJson, RunEff.summaryMd])
    | Except.error e => (Except.error e, [RunEff.serialStart])
  (body.1, body.2 ++ [RunEff.serialStop])

/-- Process exit status: the returned code on normal completion, or the
interpreter's default status 1 for an uncaught exception. -/
def processExitCode (scenarioResult : Except String Int) : Int :=
  match (harnessRun scenarioResult).1 with
  | Except.ok rc => rc
  | Except.error _ => 1

/-- C3 counterexample: when the scenario body raises, `Harness.run`
stops the serial reader (the `finally`) but writes **neither** summary
document, and the exception propagates uncaught — refuting the claim
that both summary documents are written and the exception is caught and
recorded on every exit path. -/
theorem run_summaries_skipped_counterexample :
    (harnessRun (Except.error "boom")).2 = [RunEff.serialStart, RunEff.serialStop] ∧
    RunEff.summaryJson ∉ (harnessRun (Except.error "boom")).2 ∧
    RunEff.summaryMd ∉ (harnessRun (Except.error "boom")).2 ∧
    (harnessRun (Except.error "boom")).1 = Except.error "boom" :=
  ⟨rfl, by decide, by decide, rfl⟩

/-- C3 (amended): on every exit path of `Harness.run` the reader thread
is stopped and the serial handle released (the `finally` clause, always
the last effect); when the scenario dispatch completes normally, both
summary documents are written and the return code is propagated; when a
scenario body raises, the exception propagates uncaught (it is neither
caught nor recorded), no summary document is written, and the process
exits with the non-zero status 1 from the interpreter's default
handling. -/
theorem run_finalization_amended (r : Except String Int) :
    RunEff.serialStop ∈ (harnessRun r).2 ∧
    (harnessRun r).2.getLast? = some RunEff.serialStop ∧
    (∀ rc : Int, r = Except.ok rc →
        (harnessRun r).2
            = [RunEff.serialStart, RunEff.summaryJson, RunEff.summaryMd, RunEff.serialStop] ∧
          (harnessRun r).1 = Except.ok rc ∧ processExitCode r = rc) ∧
    (∀ e : String, r = Except.error e →
        (harnessRun r).2 = [RunEff.serialStart, RunEff.serialStop] ∧
          (harnessRun r).1 = Except.error e ∧
          RunEff.summaryJson ∉ (harnessRun r).2 ∧
          RunEff.summaryMd ∉ (harnessRun r).2 ∧
          processExitCode r = 1) := by
  cases r with
  | ok rc0 =>
    refine ⟨by simp [harnessRun], by simp [harnessRun], ?_, ?_⟩
    · intro rc h
      injection h with h1
      subst h1
      exact ⟨rfl, rfl, rfl⟩
    · intro e h
      exact absurd h (by simp)
  | error e0 =>
    refine ⟨by simp [harnessRun], by simp [harnessRun], ?_, ?_⟩
    · intro rc h
      exact absurd h (by simp)
    · intro e h
      injection h with h1
      subst h1
      exact ⟨rfl, rfl, by simp [harnessRun], by simp [harnessRun], rfl⟩

/-- C3 witness: the amended theorem applied to a normal run (code 0)
and to a raising scenario body. -/
theorem run_finalization_amended_witness :
    ((harnessRun (Except.ok 0)).2
        = [RunEff.serialStart, RunEff.summaryJson, RunEff.summaryMd, RunEff.serialStop] ∧
      processExitCode (Except.ok 0) = 0) ∧
    ((harnessRun (Except.error "KeyError")).2 = [RunEff.serialStart, RunEff.serialStop] ∧
      processExitCode (Except.error "KeyError") = 1) :=
  ⟨⟨((run_finalization_amended (Except.ok 0)).2.2.1 0 rfl).1,
    ((run_finalization_amended (Except.ok 0)).2.2.1 0 rfl).2.2⟩,
   ⟨((run_finalization_amended (Except.error "KeyError")).2.2.2 "KeyError" rfl).1,
    ((run_finalization_amended (Except.error "KeyError")).2.2.2 "KeyError" rfl).2.2.2.2⟩⟩

/-! ## List minima / maxima (Python `min` / `max` over journal fields) -/

def listMin {α : Type} [LinearOrder α] : List α → Option α
  | [] => none
  | x :: xs => some (xs.foldl min x)

def listMax {α : Type} [LinearOrder α] : List α → Option α
  | [] => none
  | x :: xs => some (xs.foldl max x)

/-- Least-element predicate: `m` is in `l` and bounds it below. -/
def isMinOf {α : Type} [LinearOrder α] (m : α) (l : List α) : Prop :=
  m ∈ l ∧ ∀ x ∈ l, m ≤ x

/-- Greatest-element predicate: `m` is in `l` and bounds it above. -/
def isMaxOf {α : Type} [LinearOrder α] (m : α) (l : List α) : Prop :=
  m ∈ l ∧ ∀ x ∈ l, x ≤ m

theorem foldl_min_le {α : Type} [LinearOrder α] :
    ∀ (xs : List α) (a : α), xs.foldl min a ≤ a ∧ ∀ x ∈ xs, xs.foldl min a ≤ x := by
  intro xs
  induction xs with
  | nil =>
    intro a
    exact ⟨le_refl a, fun x hx => absurd hx (List.not_mem_nil x)⟩
  | cons x xs ih =>
    intro a
    obtain ⟨h1, h2⟩ := ih (min a x)
    refine ⟨le_trans h1 (min_le_left a x), ?_⟩
    intro y hy
    rcases List.mem_cons.mp hy with rfl | hy
    · exact le_trans h1 (min_le_right a y)
    · exact h2 y hy

theorem foldl_min_mem {α : Type} [LinearOrder α] :
    ∀ (xs : List α) (a : α), xs.foldl min a = a ∨ xs.foldl min a ∈ xs := by
  intro xs
  induction xs with
  | nil => intro a; exact Or.inl rfl
  | cons x xs ih =>
    intro a
    rcases ih (min a x) with h | h
    · rcases min_choice a x with hc | hc
      · exact Or.inl (by rw [List.foldl_cons, h, hc])
      · exact Or.inr (by rw [List.foldl_cons, h, hc]; exact List.mem_cons_self x xs)
    · exact Or.inr (List.mem_cons_of_mem x h)

theorem foldl_max_le {α : Type} [LinearOrder α] :
    ∀ (xs : List α) (a : α), a ≤ xs.foldl max a ∧ ∀ x ∈ xs, x ≤ xs.foldl max a := by
  intro xs
  induction xs with
  | nil =>
    intro a
    exact ⟨le_refl a, fun x hx => absurd hx (List.not_mem_nil x)⟩
  | cons x xs ih =>
    intro a
    obtain ⟨h1, h2⟩ := ih (max a x)
    refine ⟨le_trans (le_max_left a x) h1, ?_⟩
    intro y hy
    rcases List.mem_cons.mp hy with rfl | hy
    · exact le_trans (le_max_right a y) h1
    · exact h2 y hy

theorem foldl_max_mem {α : Type} [LinearOrder α] :
    ∀ (xs : List α) (a : α), xs.foldl max a = a ∨ xs.foldl max a ∈ xs := by
  intro xs
  induction xs with
  | nil => intro a; exact Or.inl rfl
  | cons x xs ih =>
    intro a
    rcases ih (max a x) with h | h
    · rcases max_choice a x with hc | hc
      · exact Or.inl (by rw [List.foldl_cons, h, hc])
      · exact Or.inr (by rw [List.foldl_cons, h, hc]; exact List.mem_cons_self x xs)
    · exact Or.inr (List.mem_cons_of_mem x h)

theorem listMin_spec {α : Type} [LinearOrder α] (l : List α) (h : l ≠ []) :
    ∃ m, listMin l = some m ∧ isMinOf m l := by
  cases l with
  | nil => exact absurd rfl h
  | cons x xs =>
    refine ⟨xs.foldl min x, rfl, ?_, ?_⟩
    · rcases foldl_min_mem xs x with h1 | h1
      · rw [h1]; exact List.mem_cons_self x xs
      · exact List.mem_cons_of_mem x h1
    · intro y hy
      obtain ⟨h1, h2⟩ := foldl_min_le xs x
      rcases List.mem_cons.mp hy with rfl | hy
      · exact h1
      · exact h2 y hy

theorem listMax_spec {α : Type} [LinearOrder α] (l : List α) (h : l ≠ []) :
    ∃ m, listMax l = some m ∧ isMaxOf m l := by
  cases l with
  | nil => exact absurd rfl h
  | cons x xs =>
    refine ⟨xs.foldl max x, rfl, ?_, ?_⟩
    · rcases foldl_max_mem xs x with h1 | h1
      · rw [h1]; exact List.mem_cons_self x xs
      · exact List.mem_cons_of_mem x h1
    · intro y hy
      obtain ⟨h1, h2⟩ := foldl_max_le xs x
      rcases List.mem_cons.mp hy with rfl | hy
      · exact h1
      · exact h2 y hy

theorem listMin_eq_of_isMinOf {α : Type} [LinearOrder α] (l : List α) (m : α)
    (h : isMinOf m l) : listMin l = some m := by
  have hne : l ≠ [] := by
    intro he
    rw [he] at h
    exact absurd h.1 (List.not_mem_nil m)
  obtain ⟨m0, he0, hmem0, hlb0⟩ := listMin_spec l hne
  have h1 : m0 ≤ m := hlb0 m h.1
  have h2 : m ≤ m0 := h.2 m0 hmem0
  rw [he0, le_antisymm h1 h2]

/-! ## Sorted string sets (Python `sorted(set(...))`) -/

/-- Code-point comparison of strings (Python string ordering on the
harness's ASCII tags). -/
def charListLe : List Char → List Char → Bool
  | [], _ => true
  | _ :: _, [] => false
  | a :: as, b :: bs =>
    if a.toNat < b.toNat then true
    else if b.toNat < a.toNat then false
    else charListLe as bs

def strLeB (a b : String) : Bool := charListLe a.toList b.toList

/-- Ordered insertion skipping duplicates. -/
def insertSortedStr (x : String) : List String → List String
  | [] => [x]
  | y :: ys =>
    if x = y then y :: ys
    else if strLeB x y then x :: y :: ys
    else y :: insertSortedStr x ys

/-- Python `sorted(set(l))`: sorted duplicate-free view of a string list. -/
def sortDedupStr (l : List String) : List String := l.foldr insertSortedStr []

theorem mem_insertSortedStr (x a : String) :
    ∀ ys : List String, a ∈ insertSortedStr x ys ↔ a = x ∨ a ∈ ys := by
  intro ys
  induction ys with
  | nil => simp [insertSortedStr]
  | cons y ys ih =>
    by_cases hxy : x = y
    · subst hxy
      simp only [insertSortedStr, if_pos rfl]
      constructor
      · intro h; exact Or.inr h
      · rintro (rfl | h)
        · exact List.mem_cons_self a ys
        · exact h
    · cases hle : strLeB x y with
      | true =>
        simp [insertSortedStr, hxy, hle]
      | false =>
        simp only [insertSortedStr, if_neg hxy, hle]
        simp only [Bool.false_eq_true, if_false, List.mem_cons, ih]
        constructor
        · rintro (rfl | h | h)
          · exact Or.inr (Or.inl rfl)
          · exact Or.inl h
          · exact Or.inr (Or.inr h)
        · rintro (rfl | rfl | h)
          · exact Or.inr (Or.inl rfl)
          · exact Or.inl rfl
          · exact Or.inr (Or.inr h)

theorem mem_sortDedupStr (a : String) :
    ∀ l : List String, a ∈ sortDedupStr l ↔ a ∈ l := by
  intro l
  induction l with
  | nil => simp [sortDedupStr]
  | cons x xs ih =>
    show a ∈ insertSortedStr x (sortDedupStr xs) ↔ a ∈ x :: xs
    rw [mem_insertSortedStr, ih]
    constructor
    · rintro (rfl | h)
      · exact List.mem_cons_self a xs
      · exact List.mem_cons_of_mem x h
    · intro h
      rcases List.mem_cons.mp h with rfl | h
      · exact Or.inl rfl
      · exact Or.inr h

/-! ## `Harness._derive_metrics` (MetricsDeriver)

Journals are lists of parsed rows; `none` models a journal file whose
read raised (missing file), which the code turns into an empty row list
(for `mem.jsonl`) or a "no data" result (tripwire, panic). -/

/-- A row of `mem.jsonl` (written by the decoder with all nine fields). -/
structure MemRow where
  tag : String
  hf : Nat
  hm : Nat
  hl : Nat
  hi : Nat
  hin : Nat
  frag : Nat
  pf : Nat
  pm : Nat
  pl : Nat
deriving DecidableEq

/-- A row of `events.jsonl` (only the fields the deriver reads). -/
structure EventRow where
  type : String
  ts : Nat
  tag : String
  hin : Nat
  threshold : Nat
deriving DecidableEq

/-- A row of `tasks.jsonl` with `name` and `stack_rem` present. -/
structure TaskRow where
  name : String
  prio : Nat
  core : Int
  stack_rem : Nat
deriving DecidableEq

/-- Stable ascending insertion by remaining stack (Python `sorted` with
key `stack_rem`). -/
def insertByStack (x : TaskRow) : List TaskRow → List TaskRow
  | [] => [x]
  | y :: ys => if x.stack_rem < y.stack_rem then x :: y :: ys else y :: insertByStack x ys

def sortByStack (l : List TaskRow) : List TaskRow := l.foldr insertByStack []

/-- The `derived["tripwire"]` summary. -/
structure TripSummary where
  fired : Bool
  ts : Option Nat := none
  tag : Option String := none
  hin : Option Nat := none
  threshold : Option Nat := none
  worst_stacks : Option (List TaskRow) := none
deriving DecidableEq

/-- The whole `derived` dictionary: a key set only when data exists. -/
structure DerivedMetrics where
  hin_min : Option Nat
  hm_min : Option Nat
  pf_min : Option Nat
  pm_min : Option Nat
  frag_max : Option Nat
  tags : Option (List String)
  tripwire : TripSummary
  panic : PanicResult
deriving DecidableEq

/-- Embedding of `Harness._derive_metrics`: minima/maximum over all
memory rows (keys absent when there are none), first tripwire event with
the six worst stack margins, and the crash-marker scan. -/
def deriveMetrics (memJ : Option (List MemRow)) (eventsJ : Option (List EventRow))
    (tasksJ : Option (List TaskRow)) (serialJ : Option (List (List Char))) :
    DerivedMetrics :=
  let recs := memJ.getD []
  let tags : Option (List String) :=
    match recs with
    | [] => none
    | _ :: _ =>
      some (sortDedupStr (recs.filterMap (fun r => if r.tag = "" then none else some r.tag)))
  let tw := (eventsJ.getD []).find? (fun e => e.type == "tripwire")
  let tripwire : TripSummary :=
    match tw with
    | some ev =>
      { fired := true, ts := some ev.ts, tag := some ev.tag, hin := some ev.hin,
        threshold := some ev.threshold,
        worst_stacks :=
          match tasksJ with
          | none => none
          | some rows => some ((sortByStack rows).take 6) }
    | none => { fired := false }
  { hin_min := listMin (recs.map (fun r => r.hin)),
    hm_min := listMin (recs.map (fun r => r.hm)),
    pf_min := listMin (recs.map (fun r => r.pf)),
    pm_min := listMin (recs.map (fun r => r.pm)),
    frag_max := listMax (recs.map (fun r => r.frag)),
    tags := tags,
    tripwire := tripwire,
    panic := detectPanic serialJ }

/-- C5: over a nonempty persisted memory journal the deriver computes
the true minima of `hin`, `hm`, `pf`, `pm` and the true maximum of
`frag`; and each analysis independently tolerates a missing or empty
journal by reporting "no data" (absent keys / `fired = false` /
`detected = false`) instead of raising. -/
theorem derive_metrics_spec :
    (∀ (recs : List MemRow) (eventsJ : Option (List EventRow))
        (tasksJ : Option (List TaskRow)) (serialJ : Option (List (List Char))),
        recs ≠ [] →
        (∃ m, (deriveMetrics (some recs) eventsJ tasksJ serialJ).hin_min = some m ∧
            isMinOf m (recs.map (fun r => r.hin))) ∧
        (∃ m, (deriveMetrics (some recs) eventsJ tasksJ serialJ).hm_min = some m ∧
            isMinOf m (recs.map (fun r => r.hm))) ∧
        (∃ m, (deriveMetrics (some recs) eventsJ tasksJ serialJ).pf_min = some m ∧
            isMinOf m (recs.map (fun r => r.pf))) ∧
        (∃ m, (deriveMetrics (some recs) eventsJ tasksJ serialJ).pm_min = some m ∧
            isMinOf m (recs.map (fun r => r.pm))) ∧
        (∃ m, (deriveMetrics (some recs) eventsJ tasksJ serialJ).frag_max = some m ∧
            isMaxOf m (recs.map (fun r => r.frag)))) ∧
    (∀ (memJ : Option (List MemRow)) (eventsJ : Option (List EventRow))
        (tasksJ : Option (List TaskRow)) (serialJ : Option (List (List Char))),
        (memJ = none ∨ memJ = some []) →
        (deriveMetrics memJ eventsJ tasksJ serialJ).hin_min = none ∧
        (deriveMetrics memJ eventsJ tasksJ serialJ).hm_min = none ∧
        (deriveMetrics memJ eventsJ tasksJ serialJ).pf_min = none ∧
        (deriveMetrics memJ eventsJ tasksJ serialJ).pm_min = none ∧
        (deriveMetrics memJ eventsJ tasksJ serialJ).frag_max = none ∧
        (deriveMetrics memJ eventsJ tasksJ serialJ).tags = none) ∧
    (∀ (memJ : Option (List MemRow)) (tasksJ : Option (List TaskRow))
        (serialJ : Option (List (List Char))) (eventsJ : Option (List EventRow)),
        (eventsJ = none ∨
          ∃ evs, eventsJ = some evs ∧ ∀ e ∈ evs, (e.type == "tripwire") = false) →
        (deriveMetrics memJ eventsJ tasksJ serialJ).tripwire.fired = false) ∧
    (∀ (memJ : Option (List MemRow)) (eventsJ : Option (List EventRow))
        (tasksJ : Option (List TaskRow)) (serialJ : Option (List (List Char))),
        (serialJ = none ∨ serialJ = some []) →
        (deriveMetrics memJ eventsJ tasksJ serialJ).panic.detected = false) := by
  refine ⟨?_, ?_, ?_, ?_⟩
  · intro recs eventsJ tasksJ serialJ hne
    have hmap : ∀ f : MemRow → Nat, recs.map f ≠ [] := by
      intro f h
      exact hne (List.map_eq_nil_iff.mp h)
    refine ⟨?_, ?_, ?_, ?_, ?_⟩
    · obtain ⟨m, hm, hmin⟩ := listMin_spec (recs.map (fun r => r.hin)) (hmap _)
      exact ⟨m, by simp [deriveMetrics, hm], hmin⟩
    · obtain ⟨m, hm, hmin⟩ := listMin_spec (recs.map (fun r => r.hm)) (hmap _)
      exact ⟨m, by simp [deriveMetrics, hm], hmin⟩
    · obtain ⟨m, hm, hmin⟩ := listMin_spec (recs.map (fun r => r.pf)) (hmap _)
      exact ⟨m, by simp [deriveMetrics, hm], hmin⟩
    · obtain ⟨m, hm, hmin⟩ := listMin_spec (recs.map (fun r => r.pm)) (hmap _)
      exact ⟨m, by simp [deriveMetrics, hm], hmin⟩
    · obtain ⟨m, hm, hmax⟩ := listMax_spec (recs.map (fun r => r.frag)) (hmap _)
      exact ⟨m, by simp [deriveMetrics, hm], hmax⟩
  · rintro memJ eventsJ tasksJ serialJ (rfl | rfl) <;>
      exact ⟨rfl, rfl, rfl, rfl, rfl, rfl⟩
  · rintro memJ tasksJ serialJ eventsJ (rfl | ⟨evs, rfl, hnone⟩)
    · rfl
    · have hfind : evs.find? (fun e => e.type == "tripwire") = none := by
        rw [List.find?_eq_none]
        intro e he
        simp [hnone e he]
      simp [deriveMetrics, hfind]
  · rintro memJ eventsJ tasksJ serialJ (rfl | rfl) <;> rfl

/-- Two concrete memory rows for the C5 witness. -/
def demoRows : List MemRow :=
  [⟨"boot", 180000, 170000, 65536, 90000, 88000, 7, 400000, 390000, 65000⟩,
   ⟨"hb", 181000, 169000, 65000, 91000, 87000, 9, 401000, 389000, 64000⟩]

/-- C5 witness: the deriver applied to a concrete journal and to
missing journals. -/
theorem derive_metrics_spec_witness :
    (∃ m, (deriveMetrics (some demoRows) none none none).hin_min = some m ∧
        isMinOf m (demoRows.map (fun r => r.hin))) ∧
    (deriveMetrics none none none none).hin_min = none ∧
    (deriveMetrics none none none none).tripwire.fired = false ∧
    (deriveMetrics none none none none).panic.detected = false :=
  ⟨(derive_metrics_spec.1 demoRows none none none (by decide)).1,
   (derive_metrics_spec.2.1 none none none none (Or.inl rfl)).1,
   derive_metrics_spec.2.2.1 none none none none (Or.inl rfl),
   derive_metrics_spec.2.2.2 none none none none (Or.inl rfl)⟩

/-! ## `compare_runs` / `_last_by_tag` (RunComparator)

A loaded `mem.jsonl` row may lack fields (`pick` returns `None` unless
the value is an `int`), so fields are `Option Int`.  The Python dict
built by `_last_by_tag` is embedded as its lookup function
(`lastByTagF`, later rows overriding earlier ones, empty tags skipped)
together with its key set (`tagsOf`, normalized by the
`sorted(set(...))` the code applies anyway). -/

/-- A row of a loaded memory journal as `compare_runs` reads it. -/
structure CRow where
  tag : String
  hin : Option Int
  hm : Option Int
  frag : Option Int
  pf : Option Int
deriving DecidableEq

/-- Embedding of `_last_by_tag` as a lookup: rows are folded in order,
a later row with the same (nonempty) tag overriding an earlier one. -/
def lastByTagF (rows : List CRow) : String → Option CRow :=
  rows.foldl
    (fun acc r =>
      if r.tag = "" then acc
      else fun t => if t = r.tag then some r else acc t)
    (fun _ => none)

/-- The dict's keys: the nonempty tags occurring in the rows. -/
def tagsOf (rows : List CRow) : List String :=
  rows.filterMap (fun r => if r.tag = "" then none else some r.tag)

/-- Last-seen row with tag `t`, read off the journal directly (the
specification of `_last_by_tag`'s entries). -/
def lastTagSpec (rows : List CRow) (t : String) : Option CRow :=
  rows.foldl (fun o r => if r.tag = t then some r else o) none

/-- One tag's reported deltas (`n/a` = `none`). -/
structure DeltaRow where
  hin : Option Int
  hm : Option Int
  frag : Option Int
  pf : Option Int
deriving DecidableEq

/-- The `delta` helper: signed `B − A` when both sides are ints, else `n/a`. -/
def deltaOpt : Option Int → Option Int → Option Int
  | some a, some b => some (b - a)
  | _, _ => none

/-- The `pick` helper lifted over a possibly-missing row (a missing tag reads as an empty row). -/
def pickF (o : Option CRow) (f : CRow → Option Int) : Option Int :=
  match o with
  | some r => f r
  | none => none

/-- The four deltas printed for one tag. -/
def tagDelta (ba bb : String → Option CRow) (t : String) : DeltaRow :=
  ⟨deltaOpt (pickF (ba t) (fun r => r.hin)) (pickF (bb t) (fun r => r.hin)),
   deltaOpt (pickF (ba t) (fun r => r.hm)) (pickF (bb t) (fun r => r.hm)),
   deltaOpt (pickF (ba t) (fun r => r.frag)) (pickF (bb t) (fun r => r.frag)),
   deltaOpt (pickF (ba t) (fun r => r.pf)) (pickF (bb t) (fun r => r.pf))⟩

/-- What `compare_runs` prints: the no-rows bail-out, the per-tag delta
table, the overall `hin_min` delta (absent when either run has no
integer `hin` rows — the `except` around the `min(...)`), and the
return code. -/
structure CompareReport where
  noRows : Bool
  perTag : List (String × DeltaRow)
  overall : Option Int
  rc : Nat
deriving DecidableEq

/-- Embedding of `compare_runs`. -/
def compareRuns (rowsA rowsB : List CRow) : CompareReport :=
  let ba := lastByTagF rowsA
  let bb := lastByTagF rowsB
  match sortDedupStr (tagsOf rowsA ++ tagsOf rowsB) with
  | [] => ⟨true, [], none, 2⟩
  | t0 :: ts =>
    { noRows := false,
      perTag := (t0 :: ts).map (fun t => (t, tagDelta ba bb t)),
      overall :=
        match listMin (rowsA.filterMap (fun r => r.hin)),
            listMin (rowsB.filterMap (fun r => r.hin)) with
        | some ma, some mb => some (mb - ma)
        | _, _ => none,
      rc := 0 }

/-- Lookup in the printed per-tag table. -/
def lookupDelta : List (String × DeltaRow) → String → Option DeltaRow
  | [], _ => none
  | kv :: rest, t => if kv.1 = t then some kv.2 else lookupDelta rest t

theorem lastByTagF_eq_spec (t : String) (ht : t ≠ "") :
    ∀ (rows : List CRow) (acc : String → Option CRow),
      (rows.foldl
        (fun acc r =>
          if r.tag = "" then acc
          else fun t' => if t' = r.tag then some r else acc t')
        acc) t
      = rows.foldl (fun o r => if r.tag = t then some r else o) (acc t) := by
  intro rows
  induction rows with
  | nil => intro acc; rfl
  | cons r rows ih =>
    intro acc
    rw [List.foldl_cons, List.foldl_cons, ih]
    congr 1
    by_cases hr : r.tag = ""
    · rw [if_pos hr, if_neg (fun he : r.tag = t => ht (he ▸ hr))]
    · rw [if_neg hr]
      by_cases heq : t = r.tag
      · rw [if_pos heq, if_pos heq.symm]
      · rw [if_neg heq, if_neg (fun he : r.tag = t => heq he.symm)]

theorem lastByTagF_lookup (rows : List CRow) (t : String) (ht : t ≠ "") :
    lastByTagF rows t = lastTagSpec rows t :=
  lastByTagF_eq_spec t ht rows (fun _ => none)

theorem foldl_lastTag_some (t : String) :
    ∀ (rows : List CRow) (acc : Option CRow) (ra : CRow),
      rows.foldl (fun o r => if r.tag = t then some r else o) acc = some ra →
      (∃ r ∈ rows, r.tag = t) ∨ acc = some ra := by
  intro rows
  induction rows with
  | nil => intro acc ra h; exact Or.inr h
  | cons r rows ih =>
    intro acc ra h
    rw [List.foldl_cons] at h
    rcases ih (if r.tag = t then some r else acc) ra h with h1 | h1
    · obtain ⟨r0, hr0, htag⟩ := h1
      exact Or.inl ⟨r0, List.mem_cons_of_mem r hr0, htag⟩
    · by_cases hr : r.tag = t
      · exact Or.inl ⟨r, List.mem_cons_self r rows, hr⟩
      · rw [if_neg hr] at h1
        exact Or.inr h1
 
theorem lastTagSpec_mem_tagsOf (rows : List CRow) (t : String) (ht : t ≠ "")
    (ra : CRow) (h : lastTagSpec rows t = some ra) : t ∈ tagsOf rows := by
  rcases foldl_lastTag_some t rows none ra h with h1 | h1
  · obtain ⟨r, hr, htag⟩ := h1
    refine List.mem_filterMap.mpr ⟨r, hr, ?_⟩
    rw [htag, if_neg ht]
  · exact absurd h1 (by simp)

theorem lookupDelta_map (F : String → DeltaRow) (t : String) :
    ∀ tags : List String,
      lookupDelta (tags.map (fun t' => (t', F t'))) t
        = if t ∈ tags then some (F t) else none := by
  intro tags
  induction tags with
  | nil => simp [lookupDelta]
  | cons t0 ts ih =>
    by_cases h : t0 = t
    · subst h
      simp [lookupDelta]
    · rw [List.map_cons]
      show (if t0 = t then some (F t0) else lookupDelta (ts.map (fun t' => (t', F t'))) t)
        = if t ∈ t0 :: ts then some (F t) else none
      rw [if_neg h, ih]
      by_cases hm : t ∈ ts
      · rw [if_pos hm, if_pos (List.mem_cons_of_mem t0 hm)]
      · rw [if_neg hm, if_neg (fun hc => by
          rcases List.mem_cons.mp hc with he | he
          · exact h he.symm
          · exact hm he)]

theorem compareRuns_perTag (rowsA rowsB : List CRow) (t : String) (_ht : t ≠ "")
    (hmem : t ∈ tagsOf rowsA ++ tagsOf rowsB) :
    lookupDelta (compareRuns rowsA rowsB).perTag t
      = some (tagDelta (lastByTagF rowsA) (lastByTagF rowsB) t) := by
  have htmem : t ∈ sortDedupStr (tagsOf rowsA ++ tagsOf rowsB) :=
    (mem_sortDedupStr t _).mpr hmem
  cases htags : sortDedupStr (tagsOf rowsA ++ tagsOf rowsB) with
  | nil =>
    rw [htags] at htmem
    exact absurd htmem (List.not_mem_nil t)
  | cons t0 ts =>
    rw [htags] at htmem
    have hper : (compareRuns rowsA rowsB).perTag
        = (t0 :: ts).map (fun t' => (t', tagDelta (lastByTagF rowsA) (lastByTagF rowsB) t')) := by
      simp [compareRuns, htags]
    rw [hper, lookupDelta_map, if_pos htmem]

theorem deltaOpt_none_right : ∀ x : Option Int, deltaOpt x none = none := by
  intro x
  cases x <;> rfl

theorem deltaOpt_none_left : ∀ x : Option Int, deltaOpt none x = none := by
  intro x
  cases x <;> rfl

/-- C9: `compare_runs` indexes each journal by the last-seen record per
(nonempty) tag; a tag present in both runs reports the four signed
`B − A` deltas of its last-seen rows (`n/a` when a field is missing on
either side); a tag present in only one run reports `n/a` for all four
fields; and the overall line reports the delta of the two global
`hin` minima when both exist. -/
theorem compare_runs_spec :
    (∀ (rowsA rowsB : List CRow) (t : String) (ra rb : CRow),
        t ≠ "" → lastTagSpec rowsA t = some ra → lastTagSpec rowsB t = some rb →
        lookupDelta (compareRuns rowsA rowsB).perTag t
          = some ⟨deltaOpt ra.hin rb.hin, deltaOpt ra.hm rb.hm,
                  deltaOpt ra.frag rb.frag, deltaOpt ra.pf rb.pf⟩) ∧
    (∀ (rowsA rowsB : List CRow) (t : String) (ra : CRow),
        t ≠ "" → lastTagSpec rowsA t = some ra → lastTagSpec rowsB t = none →
        lookupDelta (compareRuns rowsA rowsB).perTag t = some ⟨none, none, none, none⟩) ∧
    (∀ (rowsA rowsB : List CRow) (t : String) (rb : CRow),
        t ≠ "" → lastTagSpec rowsA t = none → lastTagSpec rowsB t = some rb →
        lookupDelta (compareRuns rowsA rowsB).perTag t = some ⟨none, none, none, none⟩) ∧
    (∀ (rowsA rowsB : List CRow) (ma mb : Int),
        sortDedupStr (tagsOf rowsA ++ tagsOf rowsB) ≠ [] →
        isMinOf ma (rowsA.filterMap (fun r => r.hin)) →
        isMinOf mb (rowsB.filterMap (fun r => r.hin)) →
        (compareRuns rowsA rowsB).overall = some (mb - ma)) := by
  refine ⟨?_, ?_, ?_, ?_⟩
  · intro rowsA rowsB t ra rb ht hA hB
    have hmem : t ∈ tagsOf rowsA ++ tagsOf rowsB :=
      List.mem_append_left _ (lastTagSpec_mem_tagsOf rowsA t ht ra hA)
    rw [compareRuns_perTag rowsA rowsB t ht hmem]
    have hA2 : lastByTagF rowsA t = some ra := by rw [lastByTagF_lookup rowsA t ht, hA]
    have hB2 : lastByTagF rowsB t = some rb := by rw [lastByTagF_lookup rowsB t ht, hB]
    simp [tagDelta, pickF, hA2, hB2]
  · intro rowsA rowsB t ra ht hA hB
    have hmem : t ∈ tagsOf rowsA ++ tagsOf rowsB :=
      List.mem_append_left _ (lastTagSpec_mem_tagsOf rowsA t ht ra hA)
    rw [compareRuns_perTag rowsA rowsB t ht hmem]
    have hA2 : lastByTagF rowsA t = some ra := by rw [lastByTagF_lookup rowsA t ht, hA]
    have hB2 : lastByTagF rowsB t = none := by rw [lastByTagF_lookup rowsB t ht, hB]
    simp [tagDelta, pickF, hA2, hB2, deltaOpt_none_right]
  · intro rowsA rowsB t rb ht hA hB
    have hmem : t ∈ tagsOf rowsA ++ tagsOf rowsB :=
      List.mem_append_right _ (lastTagSpec_mem_tagsOf rowsB t ht rb hB)
    rw [compareRuns_perTag rowsA rowsB t ht hmem]
    have hA2 : lastByTagF rowsA t = none := by rw [lastByTagF_lookup rowsA t ht, hA]
    have hB2 : lastByTagF rowsB t = some rb := by rw [lastByTagF_lookup rowsB t ht, hB]
    simp [tagDelta, pickF, hA2, hB2, deltaOpt_none_left]
  · intro rowsA rowsB ma mb htags hma hmb
    have h1 := listMin_eq_of_isMinOf _ ma hma
    have h2 := listMin_eq_of_isMinOf _ mb hmb
    cases hts : sortDedupStr (tagsOf rowsA ++ tagsOf rowsB) with
    | nil => exact absurd hts htags
    | cons t0 ts => simp [compareRuns, hts, h1, h2]

/-- Last-seen rows for the C9 witness. -/
def wRowA : CRow := ⟨"boot", some 120000, some 119000, some 7, some 200⟩

def wRowB : CRow := ⟨"boot", some 110000, some 118000, some 9, some 300⟩

/-- C9 witness: run A tag `boot` hin=120000 against run B tag `boot`
hin=110000 reports a `hin` delta of −10000 (and the same overall
`hin_min` delta). -/
theorem compare_runs_spec_witness :
    lookupDelta (compareRuns [wRowA] [wRowB]).perTag "boot"
        = some ⟨some (-10000), some (-1000), some 2, some 100⟩ ∧
    (compareRuns [wRowA] [wRowB]).overall = some (-10000) := by
  constructor
  · rw [compare_runs_spec.1 [wRowA] [wRowB] "boot" wRowA wRowB (by decide) (by decide)
      (by decide)]
    decide
  · rw [compare_runs_spec.2.2.2 [wRowA] [wRowB] 120000 110000 (by decide)
      ⟨by decide, by decide⟩ ⟨by decide, by decide⟩]
    decide

/-! ## `Harness._save_config_no_reboot` (config save, no reboot)

A JSON object is an association list (first occurrence wins on lookup).
The payload is built by copying the allowed fields present in the GET
response, then blanking the three stored secrets before POSTing. -/

inductive JVal where
  | jstr (s : String)
  | jnum (n : Int)
  | jbool (b : Bool)
  | jnull
deriving DecidableEq

/-- A JSON object. -/
abbrev JDoc := List (String × JVal)

/-- Key lookup (`doc.get(k)` / `k in doc`). -/
def jGet : JDoc → String → Option JVal
  | [], _ => none
  | kv :: rest, k => if kv.1 = k then some kv.2 else jGet rest k

/-- The `allowed_fields` set of `_save_config_no_reboot`, in the order
listed in the source. -/
def allowedFields : List String :=
  ["wifi_ssid", "wifi_password", "device_name", "fixed_ip", "subnet_mask",
   "gateway", "dns1", "dns2", "dummy_setting", "mqtt_host", "mqtt_port",
   "mqtt_username", "mqtt_password", "mqtt_interval_seconds",
   "basic_auth_enabled", "basic_auth_username", "basic_auth_password",
   "backlight_brightness", "screen_saver_enabled",
   "screen_saver_timeout_seconds", "screen_saver_fade_out_ms",
   "screen_saver_fade_in_ms", "screen_saver_wake_on_touch"]

/-- The three stored secrets never POSTed back. -/
def secretFields : List String :=
  ["wifi_password", "mqtt_password", "basic_auth_password"]

/-- In-place update of an existing key (`payload[k] = v`). -/
def setKey : JDoc → String → JVal → JDoc
  | [], _, _ => []
  | kv :: rest, k, nv => if kv.1 = k then (kv.1, nv) :: rest else kv :: setKey rest k nv

/-- Blank a secret when present: `if secret_field in payload: payload[secret_field] = ""`. -/
def scrubSecret (d : JDoc) (k : String) : JDoc :=
  if (jGet d k).isSome then setKey d k (JVal.jstr "") else d

/-- The `payload` comprehension: allowed fields present in the GET
response, copied in order. -/
def payloadPre (doc : JDoc) : JDoc :=
  allowedFields.foldl
    (fun acc k =>
      match jGet doc k with
      | some v => acc ++ [(k, v)]
      | none => acc) []

/-- Embedding of the payload construction of `_save_config_no_reboot`:
copy allowed fields, then blank each stored secret present. -/
def buildConfigPayload (doc : JDoc) : JDoc :=
  secretFields.foldl scrubSecret (payloadPre doc)

/-- Blanking view of one payload entry. -/
def scrubEntry (e : String × JVal) : String × JVal :=
  if e.1 ∈ secretFields then (e.1, JVal.jstr "") else e

def keyList (d : JDoc) : List String := d.map (fun kv => kv.1)

theorem keyList_setKey (k : String) (nv : JVal) :
    ∀ d : JDoc, keyList (setKey d k nv) = keyList d := by
  intro d
  induction d with
  | nil => rfl
  | cons kv rest ih =>
    by_cases hk : kv.1 = k
    · simp [setKey, hk, keyList]
    · simp [setKey, hk, keyList]
      exact ih

theorem jGet_isSome_iff (k : String) :
    ∀ d : JDoc, (jGet d k).isSome = true ↔ k ∈ keyList d := by
  intro d
  induction d with
  | nil => simp [jGet, keyList]
  | cons kv rest ih =>
    by_cases hk : kv.1 = k
    · simp [jGet, hk, keyList]
    · simp only [jGet, if_neg hk, keyList, List.map_cons, List.mem_cons]
      rw [ih]
      constructor
      · intro h; exact Or.inr h
      · rintro (h | h)
        · exact absurd h.symm hk
        · exact h

theorem map_id_of_key_ne (k : String) (nv : JVal) :
    ∀ d : JDoc, k ∉ keyList d →
      d.map (fun e => if e.1 = k then (e.1, nv) else e) = d := by
  intro d
  induction d with
  | nil => intro _; rfl
  | cons e rest ih =>
    intro hk
    simp only [keyList, List.map_cons, List.mem_cons] at hk
    push_neg at hk
    obtain ⟨h1, h2⟩ := hk
    rw [List.map_cons, if_neg (fun he : e.1 = k => h1 he.symm), ih (by simpa [keyList] using h2)]

theorem setKey_eq_map (k : String) (nv : JVal) :
    ∀ d : JDoc, (keyList d).Nodup →
      setKey d k nv = d.map (fun e => if e.1 = k then (e.1, nv) else e) := by
  intro d
  induction d with
  | nil => intro _; rfl
  | cons e rest ih =>
    intro hd
    simp only [keyList, List.map_cons, List.nodup_cons] at hd
    obtain ⟨hnot, hrest⟩ := hd
    by_cases hk : e.1 = k
    · rw [setKey, if_pos hk, List.map_cons, if_pos hk]
      rw [map_id_of_key_ne k nv rest (by rw [← hk]; simpa [keyList] using hnot)]
    · rw [setKey, if_neg hk, List.map_cons, if_neg hk, ih (by simpa [keyList] using hrest)]

theorem scrubSecret_eq_map (k : String) (d : JDoc) (hd : (keyList d).Nodup) :
    scrubSecret d k = d.map (fun e => if e.1 = k then (e.1, JVal.jstr "") else e) := by
  by_cases h : (jGet d k).isSome = true
  · rw [scrubSecret, if_pos h, setKey_eq_map k _ d hd]
  · rw [scrubSecret, if_neg h]
    have hk : k ∉ keyList d := fun hm => h ((jGet_isSome_iff k d).mpr hm)
    rw [map_id_of_key_ne k _ d hk]

theorem keyList_scrubSecret (k : String) (d : JDoc) :
    keyList (scrubSecret d k) = keyList d := by
  by_cases h : (jGet d k).isSome = true
  · rw [scrubSecret, if_pos h, keyList_setKey]
  · rw [scrubSecret, if_neg h]

theorem fold_scrub_eq_map (secrets : List String) :
    ∀ d : JDoc, (keyList d).Nodup →
      secrets.foldl scrubSecret d
        = d.map (fun e => if e.1 ∈ secrets then (e.1, JVal.jstr "") else e) := by
  induction secrets with
  | nil =>
    intro d _
    have hfun : (fun (e : String × JVal) =>
        if e.1 ∈ ([] : List String) then (e.1, JVal.jstr "") else e) = fun e => e := by
      funext e
      simp
    rw [List.foldl_nil, hfun]
    simp
  | cons s ss ih =>
    intro d hd
    rw [List.foldl_cons, ih (scrubSecret d s) (by rw [keyList_scrubSecret]; exact hd),
      scrubSecret_eq_map s d hd, List.map_map]
    have hfun : ((fun (e : String × JVal) => if e.1 ∈ ss then (e.1, JVal.jstr "") else e) ∘
        (fun (e : String × JVal) => if e.1 = s then (e.1, JVal.jstr "") else e))
        = fun e => if e.1 ∈ s :: ss then (e.1, JVal.jstr "") else e := by
      funext e
      by_cases h1 : e.1 = s
      · by_cases h2 : e.1 ∈ ss <;>
          simp [Function.comp, h1, h2, List.mem_cons]
      · by_cases h2 : e.1 ∈ ss <;>
          simp [Function.comp, h1, h2, List.mem_cons]
    rw [hfun]

theorem payload_keys_nodup (doc : JDoc) :
    ∀ (fields : List String) (acc : JDoc), (keyList acc).Nodup → fields.Nodup →
      (∀ k ∈ fields, k ∉ keyList acc) →
      (keyList (fields.foldl
        (fun acc k =>
          match jGet doc k with
          | some v => acc ++ [(k, v)]
          | none => acc) acc)).Nodup := by
  intro fields
  induction fields with
  | nil => intro acc hacc _ _; exact hacc
  | cons k fs ih =>
    intro acc hacc hfields hdis
    rw [List.nodup_cons] at hfields
    obtain ⟨hknotfs, hfs⟩ := hfields
    rw [List.foldl_cons]
    cases hj : jGet doc k with
    | none =>
      exact ih acc hacc hfs (fun k0 hk0 => hdis k0 (List.mem_cons_of_mem k hk0))
    | some v =>
      have hacc2 : (keyList (acc ++ [(k, v)])).Nodup := by
        have hkey : keyList (acc ++ [(k, v)]) = keyList acc ++ [k] := by
          simp [keyList]
        rw [hkey, List.nodup_append]
        refine ⟨hacc, List.nodup_singleton k, ?_⟩
        intro x hx hxk
        simp only [List.mem_singleton] at hxk
        subst hxk
        exact (hdis x (List.mem_cons_self x fs)) hx
      refine ih (acc ++ [(k, v)]) hacc2 hfs ?_
      intro k0 hk0
      have hkey : keyList (acc ++ [(k, v)]) = keyList acc ++ [k] := by simp [keyList]
      rw [hkey]
      intro hmem
      rcases List.mem_append.mp hmem with hm | hm
      · exact (hdis k0 (List.mem_cons_of_mem k hk0)) hm
      · simp only [List.mem_singleton] at hm
        subst hm
        exact hknotfs hk0

theorem payloadPre_nodup (doc : JDoc) : (keyList (payloadPre doc)).Nodup := by
  refine payload_keys_nodup doc allowedFields [] ?_ (by decide) ?_
  · simp [keyList]
  · intro k _
    simp [keyList]

theorem build_eq_map_scrub (doc : JDoc) :
    buildConfigPayload doc = (payloadPre doc).map scrubEntry := by
  show secretFields.foldl scrubSecret (payloadPre doc) = _
  rw [fold_scrub_eq_map secretFields (payloadPre doc) (payloadPre_nodup doc)]
  rfl

theorem jGet_map_scrub (k : String) :
    ∀ d : JDoc, jGet (d.map scrubEntry) k
      = match jGet d k with
        | some v => some (if k ∈ secretFields then JVal.jstr "" else v)
        | none => none := by
  intro d
  induction d with
  | nil => rfl
  | cons e rest ih =>
    by_cases he : e.1 = k
    · subst he
      by_cases hs : e.1 ∈ secretFields <;>
        simp [jGet, scrubEntry, hs]
    · by_cases hs : e.1 ∈ secretFields <;>
        simp [jGet, scrubEntry, hs, he, ih]

theorem payloadPre_map_eq (doc1 doc2 : JDoc)
    (hval : ∀ k, k ∉ secretFields → jGet doc1 k = jGet doc2 k)
    (hpres : ∀ k, k ∈ secretFields → (jGet doc1 k).isSome = (jGet doc2 k).isSome) :
    ∀ (fields : List String) (acc1 acc2 : JDoc),
      acc1.map scrubEntry = acc2.map scrubEntry →
      (fields.foldl
        (fun acc k =>
          match jGet doc1 k with
          | some v => acc ++ [(k, v)]
          | none => acc) acc1).map scrubEntry
        = (fields.foldl
            (fun acc k =>
              match jGet doc2 k with
              | some v => acc ++ [(k, v)]
              | none => acc) acc2).map scrubEntry := by
  intro fields
  induction fields with
  | nil => intro acc1 acc2 hacc; exact hacc
  | cons k fs ih =>
    intro acc1 acc2 hacc
    rw [List.foldl_cons, List.foldl_cons]
    by_cases hk : k ∈ secretFields
    · have hp := hpres k hk
      cases hj1 : jGet doc1 k with
      | none =>
        cases hj2 : jGet doc2 k with
        | none => exact ih acc1 acc2 hacc
        | some v2 =>
          rw [hj1, hj2] at hp
          simp at hp
      | some v1 =>
        cases hj2 : jGet doc2 k with
        | none =>
          rw [hj1, hj2] at hp
          simp at hp
        | some v2 =>
          refine ih _ _ ?_
          rw [List.map_append, List.map_append, hacc]
          congr 1
          simp [scrubEntry, hk]
    · have hv := hval k hk
      cases hj1 : jGet doc1 k with
      | none =>
        rw [hj1] at hv
        rw [← hv]
        exact ih acc1 acc2 hacc
      | some v1 =>
        rw [hj1] at hv
        rw [← hv]
        refine ih _ _ ?_
        rw [List.map_append, List.map_append, hacc]

/-- C10: the config-save step never POSTs stored secrets back: in the
payload built from any GET `/api/config` document, each of
`wifi_password`, `mqtt_password` and `basic_auth_password` is the empty
string whenever present; and two GET documents that agree on all
non-secret fields and on the *presence* of the secret fields produce
identical POST payloads (the secret *values* cannot influence the
POSTed bytes). -/
theorem config_save_scrubs_secrets :
    (∀ (doc : JDoc) (s : String), s ∈ secretFields →
        ∀ v, jGet (buildConfigPayload doc) s = some v → v = JVal.jstr "") ∧
    (∀ doc1 doc2 : JDoc,
        (∀ k, k ∉ secretFields → jGet doc1 k = jGet doc2 k) →
        (∀ k, k ∈ secretFields → (jGet doc1 k).isSome = (jGet doc2 k).isSome) →
        buildConfigPayload doc1 = buildConfigPayload doc2) := by
  constructor
  · intro doc s hs v hv
    rw [build_eq_map_scrub, jGet_map_scrub] at hv
    cases hj : jGet (payloadPre doc) s with
    | none =>
      rw [hj] at hv
      simp at hv
    | some v0 =>
      rw [hj] at hv
      simp only [if_pos hs] at hv
      injection hv with hv1
      exact hv1.symm
  · intro doc1 doc2 hval hpres
    rw [build_eq_map_scrub, build_eq_map_scrub]
    exact payloadPre_map_eq doc1 doc2 hval hpres allowedFields [] [] rfl

/-- Two GET responses differing only in the stored secret values. -/
def demoConfigDoc : JDoc :=
  [("wifi_ssid", JVal.jstr "net"), ("wifi_password", JVal.jstr "hunter2"),
   ("mqtt_host", JVal.jstr "broker"), ("mqtt_password", JVal.jstr "s3cret"),
   ("basic_auth_password", JVal.jstr "pw"), ("portal_extra", JVal.jnum 3)]

def demoConfigDoc2 : JDoc :=
  [("wifi_ssid", JVal.jstr "net"), ("wifi_password", JVal.jstr "a"),
   ("mqtt_host", JVal.jstr "broker"), ("mqtt_password", JVal.jstr "b"),
   ("basic_auth_password", JVal.jstr "c"), ("portal_extra", JVal.jnum 3)]

/-- C10 witness: a concrete GET document has its wifi password blanked
in the payload, and changing only the three secret values leaves the
POSTed payload identical. -/
theorem config_save_scrubs_secrets_witness :
    jGet (buildConfigPayload demoConfigDoc) "wifi_password" = some (JVal.jstr "") ∧
    buildConfigPayload demoConfigDoc = buildConfigPayload demoConfigDoc2 :=
  ⟨by decide,
   config_save_scrubs_secrets.2 demoConfigDoc demoConfigDoc2
    (fun k hk => by
      have h1 : ¬ ("wifi_password" = k) :=
        fun he => hk (he ▸ (by decide : "wifi_password" ∈ secretFields))
      have h2 : ¬ ("mqtt_password" = k) :=
        fun he => hk (he ▸ (by decide : "mqtt_password" ∈ secretFields))
      have h3 : ¬ ("basic_auth_password" = k) :=
        fun he => hk (he ▸ (by decide : "basic_auth_password" ∈ secretFields))
      simp only [demoConfigDoc, demoConfigDoc2, jGet, if_neg h1, if_neg h2, if_neg h3])
    (fun k hk => by
      have hcases : k = "wifi_password" ∨ k = "mqtt_password" ∨ k = "basic_auth_password" := by
        simpa [secretFields] using hk
      rcases hcases with rfl | rfl | rfl <;> decide)⟩

/-- C4 witness: the amended classification theorem evaluated on a line
matching exactly one grammar. -/
theorem classification_each_grammar_witness :
    classify "Got IP: 10.0.0.7".toList = [RecType.network] ∧
    (classify "Got IP: 10.0.0.7".toList).Nodup :=
  ⟨by
    rw [(classification_each_grammar "Got IP: 10.0.0.7".toList).1]
    decide,
   (classification_each_grammar "Got IP: 10.0.0.7".toList).2.2⟩
